import Mathlib

/-!
# shellfs: the command-spec parser and the pipe handle

A shallow embedding of `src/shell_file_system.cpp`.

* A `std::string` is the list of its characters (`Str`).  Every character the
  code looks at (`|`, the braces, the comma, the digits, the four trimmed
  whitespace characters) is ASCII.
* `std::string::npos` results are `Option Nat` values; positions and sizes are
  natural numbers (a string's size always fits a `size_t`).
* A C++ exception is an `Except.error` carrying a `Thrown` value.
* `std::unordered_set<int>` is a `Finset Int`.
* The platform primitives (`popen`, `pclose`, `fread`, `fwrite`) are not run: the value each one
  returns is an argument of the operation that calls it, and the operation
  reports which primitives it called.
-/

namespace ShellFS

/-! ## Strings and exceptions -/

/-- A `std::string`, as the list of its characters. -/
abbrev Str := List Char

/-- The value of `std::string::npos` on a 64-bit platform. -/
def npos : Nat := 2 ^ 64 - 1

/-- What a function of the file can throw: the three DuckDB exception classes
used in the file (each with its formatted message) and the two standard-library
exceptions that `substr` and `stoi` raise. -/
inductive Thrown where
  | InvalidInputException (msg : Str)
  | IOException (msg : Str)
  | InternalException (msg : Str)
  | std_out_of_range
  | std_invalid_argument
  deriving DecidableEq, Repr

/-- Equality of results is decidable. -/
instance instDecEqExcept {ε α : Type} [DecidableEq ε] [DecidableEq α] :
    DecidableEq (Except ε α)
  | .ok a, .ok b => if h : a = b then isTrue (by rw [h]) else isFalse (by intro e; cases e; exact h rfl)
  | .error a, .error b =>
    if h : a = b then isTrue (by rw [h]) else isFalse (by intro e; cases e; exact h rfl)
  | .ok _, .error _ => isFalse (by intro e; cases e)
  | .error _, .ok _ => isFalse (by intro e; cases e)

/-- `s.substr(pos, len)`: throws `std::out_of_range` when `pos > s.size()`,
otherwise the characters `[pos, pos + min(len, size - pos))`. -/
def substr (s : Str) (pos len : Nat) : Except Thrown Str :=
  if pos > s.length then .error .std_out_of_range else .ok ((s.drop pos).take len)

/-- `s.find_first_not_of(chars)`: position of the first character of `s` that
is not one of `chars`; `none` is `npos`. -/
def find_first_not_of (s chars : Str) : Option Nat :=
  match s with
  | [] => none
  | c :: cs =>
    if c ∈ chars then (find_first_not_of cs chars).map (· + 1) else some 0

/-- `s.find_last_not_of(chars)`: position of the last character of `s` that is
not one of `chars`; `none` is `npos`. -/
def find_last_not_of (s chars : Str) : Option Nat :=
  match s with
  | [] => none
  | c :: cs =>
    match find_last_not_of cs chars with
    | some i => some (i + 1)
    | none => if c ∈ chars then none else some 0

/-- The characters `trim` removes: space, tab, newline, carriage return. -/
def trimChars : Str := " \t\n\r".toList

/-- `trim` (lines 49-56). -/
def trim (s : Str) : Except Thrown Str :=
  let start := find_first_not_of s trimChars
  let end_ := find_last_not_of s trimChars
  match start with
  | none => .ok []
  | some st => substr s st ((end_.getD npos) - st + 1)

/-- `std::isdigit` on an `unsigned char` in the C locale. -/
def isdigit (c : Char) : Bool := decide (48 ≤ c.toNat) && decide (c.toNat ≤ 57)

/-- `isNonNegativeInteger` (lines 58-68). -/
def isNonNegativeInteger (s : Str) : Bool :=
  if s.isEmpty then false else s.all isdigit

/-- Scan of `rfind` for one character: positions `i, i-1, .., 0`. -/
def rfindCharFrom (s : Str) (ch : Char) : Nat → Option Nat
  | 0 => if s[0]? = some ch then some 0 else none
  | i + 1 => if s[i + 1]? = some ch then some (i + 1) else rfindCharFrom s ch i

/-- `s.rfind(ch, pos)`: the last position `≤ pos` holding `ch`; `none` is
`npos`. -/
def rfindChar (s : Str) (ch : Char) (pos : Nat) : Option Nat :=
  if s.length = 0 then none else rfindCharFrom s ch (min pos (s.length - 1))

/-- Scan of `rfind` for a string: start positions `i, i-1, .., 0`. -/
def rfindFrom (s pat : Str) : Nat → Option Nat
  | 0 => if pat.isPrefixOf s then some 0 else none
  | i + 1 => if pat.isPrefixOf (s.drop (i + 1)) then some (i + 1) else rfindFrom s pat i

/-- `s.rfind(pat, pos)`: the last position `≤ pos` at which an occurrence of
`pat` starts; `none` is `npos`. -/
def rfind (s pat : Str) (pos : Nat) : Option Nat :=
  if pat.length ≤ s.length then rfindFrom s pat (min pos (s.length - pat.length)) else none

/-- `std::getline(ss, token, delim)` on a stream with the characters `ss` left:
the extracted token and the characters left after it (the delimiter is
consumed and dropped). -/
def getline (ss : Str) (delim : Char) : Str × Str :=
  match ss with
  | [] => ([], [])
  | c :: cs =>
    if c = delim then ([], cs)
    else ((c :: (getline cs delim).1), (getline cs delim).2)

/-- `std::isspace` in the C locale (what `strtol` skips). -/
def isspace (c : Char) : Bool :=
  c = ' ' || c = '\t' || c = '\n' || c = '\x0b' || c = '\x0c' || c = '\r'

/-- Value of a string of decimal digits. -/
def digitsValue (ds : Str) : Nat :=
  ds.foldl (fun a c => 10 * a + (c.toNat - 48)) 0

/-- `INT_MAX` and `INT_MIN` of a 32-bit `int`. -/
def INT_MAX : Int := 2147483647

/-- The least `int`. -/
def INT_MIN : Int := -2147483648

/-- Outcome of `std::stoi`. -/
inductive StoiResult where
  | value (v : Int)
  | invalid_argument
  | out_of_range
  deriving DecidableEq, Repr

/-- `std::stoi(s)` in base 10: skip leading whitespace, read an optional sign and
the longest run of digits; no digit gives `std::invalid_argument`, a value
that does not fit an `int` gives `std::out_of_range`. -/
def stoi (s : Str) : StoiResult :=
  let s1 := s.dropWhile isspace
  let neg := s1.head? = some '-'
  let s2 := if s1.head? = some '-' ∨ s1.head? = some '+' then s1.tail else s1
  let ds := s2.takeWhile isdigit
  if ds = [] then .invalid_argument
  else
    let v : Int := if neg then -(digitsValue ds : Int) else (digitsValue ds : Int)
    if v < INT_MIN ∨ INT_MAX < v then .out_of_range else .value v

/-! ## The command-spec parser -/

/-- `ParsedInputCommand` (lines 42-46). -/
structure ParsedInputCommand where
  command : Str
  allowed_exit_codes : Finset Int
  deriving DecidableEq

/-- The text that opens an annotation (line 79). -/
def marker : Str := "\x7ballowed_exit_codes=".toList

/-- The message of line 76. -/
def msgMustEnd : Str := "Command must end with \x27|\x27.".toList

/-- The message of line 106 for a token. -/
def msgInvalidExitCode (token : Str) : Str :=
  "Invalid exit code: \x27".toList ++ token ++ "\x27. Must be a non-negative integer.".toList

/-- The message of line 116 for a token. -/
def msgOutOfRange (token : Str) : Str :=
  "Exit code out of range: \x27".toList ++ token ++ "\x27. Value too large.".toList

/-- The message of line 123. -/
def msgNoValidCodes : Str := "No valid exit codes parsed.".toList

/-- `a - b` on `size_t` operands: wraps around below zero. -/
def size_t_sub (a b : Nat) : Nat := if b ≤ a then a - b else 2 ^ 64 - (b - a)

theorem getline_snd_length_le (ss : Str) (delim : Char) :
    (getline ss delim).2.length ≤ ss.length := by
  induction ss with
  | nil => simp [getline]
  | cons c cs ih =>
    unfold getline
    split
    · simp
    · simp only [List.length_cons]; omega

theorem getline_snd_length_lt (ss : Str) (delim : Char) (h : ss ≠ []) :
    (getline ss delim).2.length < ss.length := by
  cases ss with
  | nil => exact absurd rfl h
  | cons c cs =>
    unfold getline
    split
    · simp
    · have := getline_snd_length_le cs delim
      simp only [List.length_cons]; omega

/-- The loop of lines 98-119 on a stream with the characters `ss` left and the
set `codes` built so far: `std::getline` fails, and the loop ends, exactly when
no character is left. -/
def parseCodes (ss : Str) (codes : Finset Int) : Except Thrown (Finset Int) :=
  if _h : ss = [] then .ok codes
  else
    match trim (getline ss ',').1 with
    | .error e => .error e
    | .ok token =>
      if token.isEmpty then parseCodes (getline ss ',').2 codes
      else if !isNonNegativeInteger token then
        .error (.InvalidInputException (msgInvalidExitCode token))
      else
        match stoi token with
        | .out_of_range => .error (.InvalidInputException (msgOutOfRange token))
        | .invalid_argument => .error .std_invalid_argument
        | .value v => parseCodes (getline ss ',').2 (insert v codes)
termination_by ss.length
decreasing_by
  all_goals exact getline_snd_length_lt ss ',' (by assumption)

/-- Lines 130-133: no annotation, the accepted set is `{0}`. -/
def parseDefault (input : Str) (lastPipe : Nat) : Except Thrown ParsedInputCommand :=
  match substr input 0 lastPipe with
  | .error e => .error e
  | .ok s =>
    match trim s with
    | .error e => .error e
    | .ok command => .ok ⟨command, insert 0 ∅⟩

/-- Lines 89-126: the annotation starts at `openBrace` and its closing brace is
at `closeBrace`. -/
def parseAnnotated (input : Str) (openBrace closeBrace : Nat) :
    Except Thrown ParsedInputCommand :=
  match substr input 0 openBrace with
  | .error e => .error e
  | .ok s =>
    match trim s with
    | .error e => .error e
    | .ok command =>
      match substr input (openBrace + marker.length)
          (size_t_sub closeBrace (openBrace + marker.length)) with
      | .error e => .error e
      | .ok codes_str =>
        match parseCodes codes_str ∅ with
        | .error e => .error e
        | .ok codes =>
          if codes = ∅ then .error (.InvalidInputException msgNoValidCodes)
          else .ok ⟨command, codes⟩

/-- `parseInputCommand` (lines 70-134). -/
def parseInputCommand (input : Str) : Except Thrown ParsedInputCommand :=
  if input.isEmpty ∨ input.getLast? ≠ some '|' then
    .error (.InvalidInputException msgMustEnd)
  else
    let lastPipe := input.length - 1
    match rfindChar input '\x7d' lastPipe with
    | some closeBrace =>
      if closeBrace + 1 = lastPipe then
        match rfind input marker closeBrace with
        | some openBrace => parseAnnotated input openBrace closeBrace
        | none => parseDefault input lastPipe
      else parseDefault input lastPipe
    | none => parseDefault input lastPipe


/-! ## The pipe handle -/

/-- `printf`-style `%d` of an `int`. -/
def fmt_d (v : Int) : Str :=
  if v < 0 then '-' :: Nat.toDigits 10 v.natAbs else Nat.toDigits 10 v.toNat

/-- `WTERMSIG(status)` of the Linux `<sys/wait.h>`: `status & 0x7f`. -/
def WTERMSIG (status : Int) : Int := status % 128

/-- `WIFEXITED(status)`: `WTERMSIG(status) == 0`. -/
def WIFEXITED (status : Int) : Bool := decide (WTERMSIG status = 0)

/-- `WEXITSTATUS(status)`: `(status & 0xff00) >> 8`. -/
def WEXITSTATUS (status : Int) : Int := (status % 65536) / 256

/-- `WIFSIGNALED(status)`: `((signed char) ((status & 0x7f) + 1) >> 1) > 0`. -/
def WIFSIGNALED (status : Int) : Bool :=
  let t := WTERMSIG status + 1
  let sc := if 128 ≤ t then t - 256 else t
  decide (0 < sc / 2)

/-- Calls to the platform primitives. -/
inductive SysCall where
  | pclose (f : Nat)
  | fread (f : Nat) (nr_bytes : Int)
  | fwrite (f : Nat) (offset : Int) (count : Int)
  | popen (command : Str) (mode : Str)
  | printf (text : Str)
  | signal_SIGPIPE_SIG_IGN
  deriving DecidableEq, Repr

/-- `ShellFileHandle` (lines 136-215): the path kept for messages, the
`FILE *` (`none` is `NULL`) and the accepted exit codes. -/
structure ShellFileHandle where
  path : Str
  pipe : Option Nat
  allowed_exit_codes : Finset Int
  deriving DecidableEq

/-- What an operation on a handle does: what it returns or throws, the handle
afterwards, and the primitives it called, in order. -/
structure Outcome (α : Type) where
  result : Except Thrown α
  handle : ShellFileHandle
  calls : List SysCall

/-- The message of line 187; `err` is `strerror(errno)`. -/
def msgCouldNotClose (path err : Str) : Str :=
  "Could not close pipe \"".toList ++ path ++ "\": ".toList ++ err

/-- The message of line 198. -/
def msgExitedAbnormally (exit_status : Int) (path : Str) : Str :=
  "Pipe process exited abnormally code=".toList ++ fmt_d exit_status ++ ": ".toList ++ path

/-- The message of line 204. -/
def msgSignal (signal_number : Int) (path : Str) : Str :=
  "Pipe process exited with signal signal=".toList ++ fmt_d signal_number ++ ": ".toList ++ path

/-- The message of line 234; `err` is `strerror(errno)`. -/
def msgCouldNotRead (path err : Str) : Str :=
  "Could not read from pipe \"".toList ++ path ++ "\": ".toList ++ err

/-- Lines 185-213 (the branch for platforms with POSIX wait statuses): what the
value `result` returned by `pclose` makes `Close` do. -/
def interpretStatus (h : ShellFileHandle) (result : Int) (err : Str) : Except Thrown Unit :=
  if result = -1 then .error (.IOException (msgCouldNotClose h.path err))
  else if WIFEXITED result then
    if WEXITSTATUS result ∉ h.allowed_exit_codes then
      .error (.IOException (msgExitedAbnormally (WEXITSTATUS result) h.path))
    else .ok ()
  else if WIFSIGNALED result then
    .error (.IOException (msgSignal (WTERMSIG result) h.path))
  else .ok ()

/-- `ShellFileHandle::Close` (lines 168-214).  `result` is the value `pclose`
returns when it is called, `err` the text of `strerror(errno)` then. -/
def ShellFileHandle.Close (h : ShellFileHandle) (result : Int) (err : Str) : Outcome Unit :=
  match h.pipe with
  | none => ⟨.ok (), h, []⟩
  | some f => ⟨interpretStatus h result err, { h with pipe := none }, [.pclose f]⟩

/-- `ShellFileSystem::Read` (lines 222-245).  `bytes_read` is the value the
`fread` call yields when it is made; `result` and `err` are as in `Close`. -/
def ShellFileSystem.Read (h : ShellFileHandle) (nr_bytes bytes_read result : Int) (err : Str) :
    Outcome Int :=
  match h.pipe with
  | none => ⟨.ok 0, h, []⟩
  | some f =>
    if bytes_read = -1 then
      ⟨.error (.IOException (msgCouldNotRead h.path err)), h, [.fread f nr_bytes]⟩
    else if bytes_read = 0 then
      ⟨match (h.Close result err).result with
        | .error e => .error e
        | .ok _ => .ok bytes_read,
       (h.Close result err).handle, .fread f nr_bytes :: (h.Close result err).calls⟩
    else ⟨.ok bytes_read, h, [.fread f nr_bytes]⟩

/-- `ShellFileSystem::CanHandleFile` (lines 338-347). -/
def ShellFileSystem.CanHandleFile (fpath : Str) : Bool :=
  if fpath.isEmpty then false
  else decide (fpath.getLast? = some '|') || decide (fpath.head? = some '|')

/-! ## Writing, opening, releasing, resetting -/

/-- The message of line 258; `err` is `strerror(errno)`. -/
def msgCouldNotWrite (path err : Str) : Str :=
  "Could not write to pipe \"".toList ++ path ++ "\": ".toList ++ err

/-- The loop of lines 252-264 on the open stream `pipe` of a handle with the
path `path`.  `fwrite i offset count` is the value the `i`-th call of the
primitive yields when it is offered `count` bytes that start `offset` bytes into
the caller's buffer; `buffer` is the current offset into that buffer.  The
result comes with the calls made, in order. -/
def writeLoop (fwrite : Nat → Int → Int → Int) (path : Str) (pipe : Nat) (err : Str) (i : Nat)
    (buffer nr_bytes bytes_written : Int) : Except Thrown Int × List SysCall :=
  if _hpos : 0 < nr_bytes then
    if _hc : fwrite i buffer (min 2147483647 nr_bytes) ≤ 0 then
      (.error (.IOException (msgCouldNotWrite path err)),
        [.fwrite pipe buffer (min 2147483647 nr_bytes)])
    else
      ((writeLoop fwrite path pipe err (i + 1)
          (buffer + fwrite i buffer (min 2147483647 nr_bytes))
          (nr_bytes - fwrite i buffer (min 2147483647 nr_bytes))
          (bytes_written + fwrite i buffer (min 2147483647 nr_bytes))).1,
        .fwrite pipe buffer (min 2147483647 nr_bytes) ::
          (writeLoop fwrite path pipe err (i + 1)
            (buffer + fwrite i buffer (min 2147483647 nr_bytes))
            (nr_bytes - fwrite i buffer (min 2147483647 nr_bytes))
            (bytes_written + fwrite i buffer (min 2147483647 nr_bytes))).2)
  else (.ok bytes_written, [])
termination_by nr_bytes.toNat
decreasing_by
  all_goals omega

/-- `ShellFileSystem::Write` (lines 247-267).  The function does not test the
stream (unlike `Read`, line 226, and `Close`, line 170): on a handle whose
stream is null it returns 0 when `nr_bytes ≤ 0`, the loop not being entered,
and otherwise hands the null stream to `fwrite`, which is undefined behaviour
and is the value `none` here. -/
def ShellFileSystem.Write (fwrite : Nat → Int → Int → Int) (h : ShellFileHandle)
    (nr_bytes : Int) (err : Str) : Option (Outcome Int) :=
  match h.pipe with
  | some pipe =>
    some ⟨(writeLoop fwrite h.path pipe err 0 0 nr_bytes 0).1, h,
      (writeLoop fwrite h.path pipe err 0 0 nr_bytes 0).2⟩
  | none => if 0 < nr_bytes then none else some ⟨.ok 0, h, []⟩

/-- What `OpenFile` does: the handle it returns or what it throws, and the
primitives it called, in order. -/
structure OpenOutcome where
  result : Except Thrown ShellFileHandle
  calls : List SysCall

/-- The message of line 298; `err` is `strerror(errno)`. -/
def msgCouldNotOpenWrite (path err : Str) : Str :=
  "Could not open pipe for writing \"".toList ++ path ++ "\": ".toList ++ err

/-- The message of line 315; `err` is `strerror(errno)`. -/
def msgCouldNotOpenRead (path err : Str) : Str :=
  "Could not open pipe for reading \"".toList ++ path ++ "\": ".toList ++ err

/-- Lines 321-333: `setting` is the value of the `ignore_sigpipe` option when
the host has one; the signal disposition changes only when it is `true`. -/
def sigpipeCalls (setting : Option Bool) : List SysCall :=
  if setting = some true then [.signal_SIGPIPE_SIG_IGN] else []

/-- `ShellFileSystem::OpenFile` (lines 283-336).  `popen_result` is the stream
`popen` returns when it is called (`none` is `NULL`), `err` the text of
`strerror(errno)` then.  The command is handed to `popen` as it stands. -/
def ShellFileSystem.OpenFile (path : Str) (popen_result : Option Nat) (err : Str)
    (setting : Option Bool) : OpenOutcome :=
  if path.head? = some '|' then
    match substr path 1 path.length with
    | .error e => ⟨.error e, []⟩
    | .ok command =>
      match popen_result with
      | none =>
        ⟨.error (.IOException (msgCouldNotOpenWrite path err)), [.popen command "w".toList]⟩
      | some pipe =>
        ⟨.ok ⟨path, some pipe, insert 0 ∅⟩, .popen command "w".toList :: sigpipeCalls setting⟩
  else
    match parseInputCommand path with
    | .error e => ⟨.error e, []⟩
    | .ok parsed =>
      match popen_result with
      | none =>
        ⟨.error (.IOException (msgCouldNotOpenRead path err)),
          [.popen parsed.command "r".toList]⟩
      | some pipe =>
        ⟨.ok ⟨path, some pipe, parsed.allowed_exit_codes⟩,
          .popen parsed.command "r".toList :: sigpipeCalls setting⟩

/-- The text printed by line 159; `what` is `e.what()`. -/
def msgDestructor (what : Str) : Str :=
  "Exception in ShellFileHandle destructor: ".toList ++ what ++ "\n".toList

/-- `ShellFileHandle::~ShellFileHandle` (lines 151-161).  `what` gives the text
of `e.what()` for a caught exception. -/
def ShellFileHandle.destructor (what : Thrown → Str) (h : ShellFileHandle) (result : Int)
    (err : Str) : Outcome Unit :=
  match (h.Close result err).result with
  | .ok _ => ⟨.ok (), (h.Close result err).handle, (h.Close result err).calls⟩
  | .error e =>
    ⟨.ok (), (h.Close result err).handle,
      (h.Close result err).calls ++ [.printf (msgDestructor (what e))]⟩

/-- The message of line 219. -/
def msgCannotReset : Str := "Cannot reset shell file system".toList

/-- `ShellFileSystem::Reset` (lines 217-220). -/
def ShellFileSystem.Reset (h : ShellFileHandle) : Outcome Unit :=
  ⟨.error (.InternalException msgCannotReset), h, []⟩

/-! ## Auxiliary notions used to state the properties -/

/-- The four characters the spec calls whitespace: space, tab, newline,
carriage return. -/
def isTrimChar (c : Char) : Bool := c = ' ' || c = '\t' || c = '\n' || c = '\r'

/-- A string with its leading and trailing whitespace removed. -/
def stripped (s : Str) : Str := (s.dropWhile isTrimChar).rdropWhile isTrimChar

/-- One pass through the loop body (lines 100-118) for the token `raw` that
`std::getline` extracted. -/
def loopBody (raw : Str) (codes : Finset Int) : Except Thrown (Finset Int) :=
  match trim raw with
  | .error e => .error e
  | .ok token =>
    if token.isEmpty then .ok codes
    else if !isNonNegativeInteger token then
      .error (.InvalidInputException (msgInvalidExitCode token))
    else
      match stoi token with
      | .out_of_range => .error (.InvalidInputException (msgOutOfRange token))
      | .invalid_argument => .error .std_invalid_argument
      | .value v => .ok (insert v codes)

/-- The loop body run over a list of tokens, in order, stopping at the first
throw. -/
def foldTokens : List Str → Finset Int → Except Thrown (Finset Int)
  | [], codes => .ok codes
  | raw :: rest, codes =>
    match loopBody raw codes with
    | .error e => .error e
    | .ok codes2 => foldTokens rest codes2


/-- The tokens of a CSV body: its comma-separated pieces, each stripped. -/
def tokensOf (body : Str) : List Str := (body.splitOn ',').map stripped

/-- A valid in-range code token: a non-empty string of decimal digits whose
value is at most 2147483647. -/
def validCode (t : Str) : Bool :=
  !t.isEmpty && t.all isdigit && decide (digitsValue t ≤ 2147483647)

/-- The set of the values of the non-empty tokens of a list. -/
def codesOf (toks : List Str) : Finset Int :=
  ((toks.filter (fun t => !t.isEmpty)).map (fun t => (digitsValue t : Int))).toFinset

/-- The count the primitive gave back to a call of a trace of `Write`, the
call being the `k`-th one. -/
def acceptedAt (fwrite : Nat → Int → Int → Int) (k : Nat) (call : SysCall) : Int :=
  match call with
  | .fwrite _ offset count => fwrite k offset count
  | _ => 0

/-- The counts the primitive gave back to the calls of a trace whose first call
is the `i`-th one. -/
def acceptedFrom (fwrite : Nat → Int → Int → Int) (i : Nat) : List SysCall → List Int
  | [] => []
  | call :: rest => acceptedAt fwrite i call :: acceptedFrom fwrite (i + 1) rest

/-- The error kinds that section 7 of the specification names. -/
inductive ErrorKind where
  | InvalidInput
  | InputOutput
  | Unsupported
  deriving DecidableEq, Repr

/-- The kind under which the specification files each exception class thrown in
the file: `InvalidInputException` is its InvalidInput kind, `IOException` its
IO kind, and `InternalException`, the class `Reset` throws, is what it calls
Unsupported.  The standard-library exceptions have no kind. -/
def Thrown.kind : Thrown → Option ErrorKind
  | .InvalidInputException _ => some .InvalidInput
  | .IOException _ => some .InputOutput
  | .InternalException _ => some .Unsupported
  | .std_out_of_range => none
  | .std_invalid_argument => none

open ShellFileSystem

/-! # Lemmas -/

/-! ## Trimming -/

theorem mem_trimChars (c : Char) : c ∈ trimChars ↔ isTrimChar c = true := by
  have h : trimChars = [' ', '\t', '\n', '\r'] := by decide
  simp [h, isTrimChar, or_assoc]

theorem ffno_all (w chars : Str) (hw : ∀ c ∈ w, c ∈ chars) :
    find_first_not_of w chars = none := by
  induction w with
  | nil => rfl
  | cons a w ih =>
    have ha : a ∈ chars := hw a (List.mem_cons_self a w)
    have hr : ∀ c ∈ w, c ∈ chars := fun c hc => hw c (List.mem_cons_of_mem a hc)
    simp [find_first_not_of, ha, ih hr]

theorem ffno_append_left (w t chars : Str) (hw : ∀ c ∈ w, c ∈ chars) :
    find_first_not_of (w ++ t) chars = (find_first_not_of t chars).map (· + w.length) := by
  induction w with
  | nil => simp
  | cons a w ih =>
    have ha : a ∈ chars := hw a (List.mem_cons_self a w)
    have hr : ∀ c ∈ w, c ∈ chars := fun c hc => hw c (List.mem_cons_of_mem a hc)
    rw [List.cons_append, find_first_not_of, if_pos ha, ih hr, Option.map_map]
    congr 1

theorem ffno_cons_not (c : Char) (t chars : Str) (h : c ∉ chars) :
    find_first_not_of (c :: t) chars = some 0 := by
  simp [find_first_not_of, h]

theorem flno_all (w chars : Str) (hw : ∀ c ∈ w, c ∈ chars) :
    find_last_not_of w chars = none := by
  induction w with
  | nil => rfl
  | cons a w ih =>
    have ha : a ∈ chars := hw a (List.mem_cons_self a w)
    have hr : ∀ c ∈ w, c ∈ chars := fun c hc => hw c (List.mem_cons_of_mem a hc)
    simp [find_last_not_of, ha, ih hr]

theorem flno_append_right (t w chars : Str) (hw : ∀ c ∈ w, c ∈ chars) :
    find_last_not_of (t ++ w) chars = find_last_not_of t chars := by
  induction t with
  | nil => simp [flno_all w chars hw, find_last_not_of]
  | cons a t ih => rw [List.cons_append, find_last_not_of, ih, find_last_not_of]

theorem flno_concat_not (t : Str) (c : Char) (chars : Str) (h : c ∉ chars) :
    find_last_not_of (t ++ [c]) chars = some t.length := by
  induction t with
  | nil => simp [find_last_not_of, h]
  | cons a t ih => rw [List.cons_append, find_last_not_of, ih, List.length_cons]

/-- A string splits into leading whitespace, its stripped core and trailing
whitespace. -/
theorem stripped_decomp (s : Str) :
    ∃ w1 w2 : Str, s = w1 ++ stripped s ++ w2 ∧
      (∀ c ∈ w1, isTrimChar c = true) ∧ (∀ c ∈ w2, isTrimChar c = true) := by
  refine ⟨s.takeWhile isTrimChar, (s.dropWhile isTrimChar).rtakeWhile isTrimChar, ?_, ?_, ?_⟩
  · have h1 : (s.dropWhile isTrimChar).rdropWhile isTrimChar ++
        (s.dropWhile isTrimChar).rtakeWhile isTrimChar = s.dropWhile isTrimChar := by
      simp only [List.rdropWhile, List.rtakeWhile, ← List.reverse_append,
        List.takeWhile_append_dropWhile, List.reverse_reverse]
    rw [List.append_assoc, stripped, h1, List.takeWhile_append_dropWhile]
  · intro c hc
    exact (List.mem_takeWhile_imp hc)
  · intro c hc
    exact List.mem_rtakeWhile_imp hc

/-- The stripped core is empty or starts with a non-whitespace character. -/
theorem stripped_head (s : Str) (a : Char) (r : Str) (h : stripped s = a :: r) :
    isTrimChar a = false := by
  have hp : stripped s <+: s.dropWhile isTrimChar := List.rdropWhile_prefix isTrimChar _
  rw [h] at hp
  obtain ⟨t, ht⟩ := hp
  have := List.head?_dropWhile_not isTrimChar s
  rw [← ht] at this
  simpa using this

/-- The stripped core is empty or ends with a non-whitespace character. -/
theorem stripped_last (s : Str) (r : Str) (b : Char) (h : stripped s = r ++ [b]) :
    isTrimChar b = false := by
  have hne : (s.dropWhile isTrimChar).rdropWhile isTrimChar ≠ [] := by
    intro h0
    rw [stripped, h0] at h
    simp at h
  have := List.rdropWhile_last_not isTrimChar (s.dropWhile isTrimChar) hne
  have h2 : ((s.dropWhile isTrimChar).rdropWhile isTrimChar).getLast hne = b := by
    have : (s.dropWhile isTrimChar).rdropWhile isTrimChar = r ++ [b] := h
    simp [this]
  rw [h2] at this
  simpa using this

theorem trim_sandwich (w1 core w2 : Str) (h1 : ∀ c ∈ w1, isTrimChar c = true)
    (h2 : ∀ c ∈ w2, isTrimChar c = true)
    (hh : ∀ a r, core = a :: r → isTrimChar a = false)
    (hl : ∀ r b, core = r ++ [b] → isTrimChar b = false) :
    trim (w1 ++ core ++ w2) = .ok core := by
  have h1m : ∀ c ∈ w1, c ∈ trimChars := fun c hc => (mem_trimChars c).2 (h1 c hc)
  have h2m : ∀ c ∈ w2, c ∈ trimChars := fun c hc => (mem_trimChars c).2 (h2 c hc)
  rcases List.eq_nil_or_concat core with hc | ⟨r, b, hc⟩
  on_goal 2 => rw [List.concat_eq_append] at hc
  · subst hc
    have : ∀ c ∈ w1 ++ w2, c ∈ trimChars := by
      intro c hc
      simp only [List.mem_append] at hc
      rcases hc with hc | hc
      · exact h1m c hc
      · exact h2m c hc
    rw [List.append_nil, trim]
    simp only [ffno_all _ _ this]
  · have hb : b ∉ trimChars := by
      rw [mem_trimChars, hl r b hc]; simp
    obtain ⟨a, r2, hc2⟩ : ∃ a r2, core = a :: r2 := by
      cases core with
      | nil => simp at hc
      | cons a r2 => exact ⟨a, r2, rfl⟩
    have ha : a ∉ trimChars := by
      rw [mem_trimChars, hh a r2 hc2]; simp
    have hf : find_first_not_of (w1 ++ core ++ w2) trimChars = some w1.length := by
      rw [List.append_assoc, ffno_append_left _ _ _ h1m, hc2, List.cons_append,
        ffno_cons_not _ _ _ ha]
      simp
    have hlast : find_last_not_of (w1 ++ core ++ w2) trimChars = some (w1.length + r.length) := by
      rw [flno_append_right _ _ _ h2m, hc, ← List.append_assoc, flno_concat_not _ _ _ hb]
      simp
    have hlen : core.length = r.length + 1 := by rw [hc]; simp
    simp only [trim, hf, hlast, Option.getD_some, substr]
    rw [if_neg (by simp)]
    congr 1
    rw [List.append_assoc, List.drop_left, show w1.length + r.length - w1.length + 1 = core.length by omega]
    simp

/-- The function `trim` never throws and returns the stripped string. -/
theorem trim_eq (s : Str) : trim s = .ok (stripped s) := by
  obtain ⟨w1, w2, hs, h1, h2⟩ := stripped_decomp s
  have := trim_sandwich w1 (stripped s) w2 h1 h2 (stripped_head s) (stripped_last s)
  rw [← hs] at this
  exact this

example : stripped "  a b \n".toList = "a b".toList := by decide

/-! ## Backward searches -/

theorem rfindCharFrom_hit (s : Str) (ch : Char) (i : Nat) (h : s[i]? = some ch) :
    rfindCharFrom s ch i = some i := by
  cases i with
  | zero => simp [rfindCharFrom, h]
  | succ i => simp [rfindCharFrom, h]

theorem rfindCharFrom_miss (s : Str) (ch : Char) (i : Nat) (h : s[i + 1]? ≠ some ch) :
    rfindCharFrom s ch (i + 1) = rfindCharFrom s ch i := by
  simp [rfindCharFrom, h]

theorem rfindCharFrom_sound (s : Str) (ch : Char) :
    ∀ i j, rfindCharFrom s ch i = some j → j ≤ i ∧ s[j]? = some ch := by
  intro i
  induction i with
  | zero =>
    intro j h
    unfold rfindCharFrom at h
    split at h
    · cases h; exact ⟨Nat.le_refl 0, by assumption⟩
    · cases h
  | succ i ih =>
    intro j h
    unfold rfindCharFrom at h
    split at h
    · cases h; exact ⟨Nat.le_refl _, by assumption⟩
    · have := ih j h
      exact ⟨Nat.le_succ_of_le this.1, this.2⟩

theorem rfindChar_sound (s : Str) (ch : Char) (pos j : Nat) (h : rfindChar s ch pos = some j) :
    j ≤ pos ∧ s[j]? = some ch := by
  unfold rfindChar at h
  split at h
  · cases h
  · have := rfindCharFrom_sound s ch _ j h
    exact ⟨Nat.le_trans this.1 (Nat.min_le_left _ _), this.2⟩

/-- On a string that ends with a closing brace and the marker, the search of
line 83 finds that brace. -/
theorem rfindChar_closing (body : Str) :
    rfindChar (body ++ ['\x7d', '|']) '\x7d' ((body ++ ['\x7d', '|']).length - 1) =
      some body.length := by
  have hlen : (body ++ ['\x7d', '|']).length = body.length + 2 := by simp
  unfold rfindChar
  rw [if_neg (by rw [hlen]; omega), hlen]
  have hm : min (body.length + 2 - 1) (body.length + 2 - 1) = body.length + 1 := by
    rw [Nat.min_self]; omega
  rw [hm, rfindCharFrom_miss, rfindCharFrom_hit]
  · rw [List.getElem?_append_right (Nat.le_refl _)]
    simp
  · rw [List.getElem?_append_right (by omega)]
    simp

theorem rfindFrom_hit (s pat : Str) (i : Nat) (h : pat <+: s.drop i) :
    rfindFrom s pat i = some i := by
  have h2 : pat.isPrefixOf (s.drop i) = true := List.isPrefixOf_iff_prefix.2 h
  cases i with
  | zero => simpa [rfindFrom] using h2
  | succ i => simp [rfindFrom, h2]

theorem rfindFrom_miss (s pat : Str) (i : Nat) (h : ¬ pat <+: s.drop (i + 1)) :
    rfindFrom s pat (i + 1) = rfindFrom s pat i := by
  have h2 : ¬ pat.isPrefixOf (s.drop (i + 1)) = true := fun e => h (List.isPrefixOf_iff_prefix.1 e)
  simp [rfindFrom, h2]

theorem rfindFrom_skip (s pat : Str) (i : Nat) :
    ∀ k, (∀ j, i < j → j ≤ i + k → ¬ pat <+: s.drop j) →
      rfindFrom s pat (i + k) = rfindFrom s pat i := by
  intro k
  induction k with
  | zero => intro _; rfl
  | succ k ih =>
    intro h
    rw [← Nat.add_assoc, rfindFrom_miss s pat (i + k) (h (i + k + 1) (by omega) (by omega))]
    exact ih (fun j h1 h2 => h j h1 (by omega))

theorem rfindFrom_sound (s pat : Str) :
    ∀ i j, rfindFrom s pat i = some j → j ≤ i ∧ pat <+: s.drop j := by
  intro i
  induction i with
  | zero =>
    intro j h
    unfold rfindFrom at h
    split at h
    · cases h
      refine ⟨Nat.le_refl 0, ?_⟩
      rw [List.drop_zero]
      exact List.isPrefixOf_iff_prefix.1 (by assumption)
    · cases h
  | succ i ih =>
    intro j h
    unfold rfindFrom at h
    split at h
    · cases h
      exact ⟨Nat.le_refl _, List.isPrefixOf_iff_prefix.1 (by assumption)⟩
    · have := ih j h
      exact ⟨Nat.le_succ_of_le this.1, this.2⟩

theorem rfind_sound (s pat : Str) (pos j : Nat) (h : rfind s pat pos = some j) :
    j ≤ pos ∧ pat <+: s.drop j := by
  unfold rfind at h
  split at h
  · have := rfindFrom_sound s pat _ j h
    exact ⟨Nat.le_trans this.1 (Nat.min_le_left _ _), this.2⟩
  · cases h

/-- The backward search returns an occurrence that has no later occurrence
starting at or before `pos`. -/
theorem rfind_last (s pat : Str) (i pos : Nat) (hp : 0 < pat.length)
    (hi : pat <+: s.drop i) (hle : i ≤ pos)
    (hno : ∀ j, i < j → j ≤ pos → ¬ pat <+: s.drop j) : rfind s pat pos = some i := by
  have hlen : i + pat.length ≤ s.length := by
    have := hi.length_le
    rw [List.length_drop] at this
    omega
  unfold rfind
  rw [if_pos (by omega)]
  obtain ⟨k, hk⟩ : ∃ k, min pos (s.length - pat.length) = i + k :=
    ⟨min pos (s.length - pat.length) - i, by omega⟩
  rw [hk, rfindFrom_skip s pat i k, rfindFrom_hit s pat i hi]
  intro j h1 h2
  exact hno j h1 (by omega)

theorem prefix_append_cons_of_not_mem (pat x y : Str) (c : Char) (hc : c ∉ pat)
    (h : pat <+: x ++ c :: y) : pat <+: x := by
  rcases List.prefix_or_prefix_of_prefix h (List.prefix_append x (c :: y)) with h1 | h1
  · exact h1
  · obtain ⟨r, hr⟩ := h1
    rw [← hr, List.prefix_append_right_inj] at h
    rcases List.prefix_cons_iff.1 h with h0 | ⟨t, ht, _⟩
    · rw [h0, List.append_nil] at hr
      rw [hr]
    · exfalso
      apply hc
      rw [← hr, ht]
      simp

/-! ## The two branches of the parser -/

theorem marker_length : marker.length = 20 := by decide

theorem marker_pos : 0 < marker.length := by decide

theorem brace_not_mem_marker : '\x7d' ∉ marker := by decide

theorem marker_drop_head :
    ∀ d < 20, 0 < d → (marker.drop d).head? ≠ some '\x7b' ∧ marker.drop d ≠ [] := by
  decide

theorem head_of_marker_prefix (l : Str) (h : marker <+: l) : l.head? = some '\x7b' := by
  obtain ⟨t, ht⟩ := h
  rw [← ht]
  rfl

/-- No occurrence of the marker text starts inside another one. -/
theorem marker_no_overlap (d : Nat) (h0 : 0 < d) (hd : d < 20) (rest : Str) :
    ¬ marker <+: marker.drop d ++ rest := by
  intro h
  have h1 := head_of_marker_prefix _ h
  obtain ⟨h2, h3⟩ := marker_drop_head d hd h0
  cases hm : marker.drop d with
  | nil => exact h3 hm
  | cons x xs =>
    rw [hm] at h1 h2
    exact h2 h1

/-- In `c ++ marker ++ body ++ "}|"` with no marker text inside `body`, the
search of line 86 finds the marker that follows `c`. -/
theorem rfind_marker (c body : Str) (h : ¬ marker <:+: body) :
    rfind (c ++ marker ++ body ++ ['\x7d', '|']) marker (c.length + marker.length + body.length) =
      some c.length := by
  apply rfind_last _ _ _ _ marker_pos
  · rw [List.append_assoc, List.append_assoc, List.drop_left]
    exact List.prefix_append _ _
  · omega
  · intro j h1 h2 hj
    obtain ⟨d, rfl⟩ : ∃ d, j = c.length + d := ⟨j - c.length, by omega⟩
    rw [List.append_assoc, List.append_assoc, ← List.drop_drop, List.drop_left] at hj
    by_cases hd : d < 20
    · rw [List.drop_append_of_le_length (by rw [marker_length]; omega)] at hj
      exact marker_no_overlap d (by omega) hd _ hj
    · obtain ⟨e, rfl⟩ : ∃ e, d = marker.length + e := ⟨d - 20, by rw [marker_length]; omega⟩
      rw [← List.drop_drop, List.drop_left] at hj
      have he : e ≤ body.length := by omega
      rw [List.drop_append_of_le_length he] at hj
      have h3 := prefix_append_cons_of_not_mem _ _ _ _ brace_not_mem_marker hj
      exact h (h3.isInfix.trans (List.drop_suffix e body).isInfix)

theorem substr_zero_append (p q : Str) : substr (p ++ q) 0 p.length = .ok p := by
  simp [substr]

/-- Lines 130-133 on a path `p ++ "|"`. -/
theorem parseDefault_eq (p : Str) :
    parseDefault (p ++ ['|']) p.length = .ok ⟨stripped p, {0}⟩ := by
  rw [parseDefault, substr_zero_append]
  simp only [trim_eq]
  rfl

/-- Lines 89-126 on `c ++ marker ++ body ++ "}|"`. -/
theorem parseAnnotated_eq (c body : Str) :
    parseAnnotated (c ++ marker ++ body ++ ['\x7d', '|']) c.length
        (c.length + marker.length + body.length) =
      match parseCodes body ∅ with
      | .error e => .error e
      | .ok codes =>
        if codes = ∅ then .error (.InvalidInputException msgNoValidCodes)
        else .ok ⟨stripped c, codes⟩ := by
  have h1 : substr (c ++ marker ++ body ++ ['\x7d', '|']) 0 c.length = .ok c := by
    rw [List.append_assoc, List.append_assoc]
    exact substr_zero_append _ _
  have h2 : substr (c ++ marker ++ body ++ ['\x7d', '|']) (c.length + marker.length)
      (size_t_sub (c.length + marker.length + body.length) (c.length + marker.length)) =
      .ok body := by
    have hs : size_t_sub (c.length + marker.length + body.length) (c.length + marker.length) =
        body.length := by
      unfold size_t_sub
      rw [if_pos (by omega)]
      omega
    rw [hs, substr, if_neg (by simp)]
    congr 1
    rw [List.append_assoc, ← List.length_append, List.drop_left]
    simp
  rw [parseAnnotated, h1]
  simp only [trim_eq, h2]

/-- The parser on an annotated path: `c`, the marker text, a body that does not
contain the marker text, the closing brace and the pipe marker. -/
theorem parseInputCommand_annotated (c body : Str) (h : ¬ marker <:+: body) :
    parseInputCommand (c ++ marker ++ body ++ ['\x7d', '|']) =
      match parseCodes body ∅ with
      | .error e => .error e
      | .ok codes =>
        if codes = ∅ then .error (.InvalidInputException msgNoValidCodes)
        else .ok ⟨stripped c, codes⟩ := by
  have hlen : (c ++ marker ++ body ++ ['\x7d', '|']).length - 1 =
      c.length + marker.length + body.length + 1 := by
    simp only [List.length_append, List.length_cons, List.length_nil]
    omega
  have hcb := rfindChar_closing (c ++ marker ++ body)
  rw [hlen] at hcb
  simp only [List.length_append] at hcb
  have hrf := rfind_marker c body h
  have hpa := parseAnnotated_eq c body
  have hne : ¬ ((c ++ marker ++ body ++ ['\x7d', '|']).isEmpty ∨
      (c ++ marker ++ body ++ ['\x7d', '|']).getLast? ≠ some '|') := by simp
  generalize c ++ marker ++ body ++ ['\x7d', '|'] = input at *
  rw [parseInputCommand, if_neg hne]
  simp only [hlen, hcb, if_true, hrf]
  exact hpa

/-- The parser on a path that ends with the pipe marker and has no annotation
next to it. -/
theorem parseInputCommand_plain (p : Str)
    (h : p.getLast? ≠ some '\x7d' ∨ ¬ marker <:+: p.dropLast) :
    parseInputCommand (p ++ ['|']) = .ok ⟨stripped p, {0}⟩ := by
  have hlen : (p ++ ['|']).length - 1 = p.length := by simp
  rw [parseInputCommand, if_neg (by simp)]
  simp only [hlen]
  cases hcb : rfindChar (p ++ ['|']) '\x7d' p.length with
  | none => exact parseDefault_eq p
  | some cb =>
    simp only
    by_cases hadj : cb + 1 = p.length
    · rw [if_pos hadj]
      cases hob : rfind (p ++ ['|']) marker cb with
      | none => exact parseDefault_eq p
      | some ob =>
        exfalso
        have hc := (rfindChar_sound _ _ _ _ hcb).2
        rw [List.getElem?_append_left (by omega)] at hc
        have hp : p = p.dropLast ++ ['\x7d'] := by
          have hne : p ≠ [] := by
            intro h0; rw [h0] at hadj; simp at hadj
          have hl : p.getLast? = some '\x7d' := by
            rw [List.getLast?_eq_getElem?]
            rw [show p.length - 1 = cb by omega]
            exact hc
          have := List.dropLast_append_getLast? '\x7d' (by simpa using hl)
          exact this.symm
        rcases h with h | h
        · apply h
          rw [hp]; simp
        · apply h
          have ho := rfind_sound _ _ _ _ hob
          have hcl : cb = p.dropLast.length := by simp; omega
          have hd : (p ++ ['|']).drop ob = p.dropLast.drop ob ++ ['\x7d', '|'] := by
            conv_lhs => rw [hp]
            rw [List.append_assoc, List.drop_append_of_le_length (by omega)]
            rfl
          have hpre := ho.2
          rw [hd] at hpre
          have h3 := prefix_append_cons_of_not_mem _ _ _ _ brace_not_mem_marker hpre
          exact h3.isInfix.trans (List.drop_suffix ob _).isInfix
    · rw [if_neg hadj]
      exact parseDefault_eq p

/-! ## The token loop -/

theorem parseCodes_nil (codes : Finset Int) : parseCodes [] codes = .ok codes := by
  rw [parseCodes]; simp

theorem parseCodes_step (ss : Str) (codes : Finset Int) (h : ss ≠ []) :
    parseCodes ss codes =
      match loopBody (getline ss ',').1 codes with
      | .error e => .error e
      | .ok codes2 => parseCodes (getline ss ',').2 codes2 := by
  rw [parseCodes, dif_neg h, loopBody]
  cases trim (getline ss ',').1 with
  | error e => rfl
  | ok token =>
    simp only
    by_cases h1 : token.isEmpty = true
    · simp only [h1, if_true]
    · simp only [h1]
      by_cases h2 : (!isNonNegativeInteger token) = true
      · simp only [h2, if_true]; rfl
      · simp only [h2]
        cases stoi token <;> rfl

theorem getline_spec (ss : Str) :
    ((',' ∉ ss) ∧ getline ss ',' = (ss, [])) ∨
      ∃ tok rest, ss = tok ++ ',' :: rest ∧ ',' ∉ tok ∧ getline ss ',' = (tok, rest) := by
  induction ss with
  | nil => left; simp [getline]
  | cons a t ih =>
    by_cases ha : a = ','
    · right
      refine ⟨[], t, by simp [ha], by simp, ?_⟩
      simp [getline, ha]
    · rcases ih with ⟨h1, h2⟩ | ⟨tok, rest, h1, h2, h3⟩
      · left
        refine ⟨?_, ?_⟩
        · simp only [List.mem_cons, not_or]
          exact ⟨fun e => ha e.symm, h1⟩
        · rw [getline, if_neg ha, h2]
      · right
        refine ⟨a :: tok, rest, by rw [h1]; rfl, ?_, ?_⟩
        · simp only [List.mem_cons, not_or]
          exact ⟨fun e => ha e.symm, h2⟩
        · rw [getline, if_neg ha, h3]

theorem loopBody_nil (codes : Finset Int) : loopBody [] codes = .ok codes := by
  simp [loopBody, trim_eq, stripped]

theorem parseCodes_eq_foldTokens_aux (n : Nat) :
    ∀ ss : Str, ss.length ≤ n →
      ∀ codes, parseCodes ss codes = foldTokens (ss.splitOn ',') codes := by
  induction n with
  | zero =>
    intro ss hlen codes
    have hss : ss = [] := List.length_eq_zero.1 (Nat.le_zero.1 hlen)
    subst hss
    rw [parseCodes_nil]
    simp [foldTokens, loopBody_nil]
  | succ n ih =>
    intro ss hlen codes
    by_cases hss : ss = []
    · subst hss
      rw [parseCodes_nil]
      simp [foldTokens, loopBody_nil]
    · rw [parseCodes_step ss codes hss]
      rcases getline_spec ss with ⟨h1, h2⟩ | ⟨tok, rest, h1, h2, h3⟩
      · have hs : ss.splitOn ',' = [ss] := by
          apply List.splitOnP_eq_single
          intro x hx hx2
          simp only [beq_iff_eq] at hx2
          exact h1 (hx2 ▸ hx)
        rw [h2, hs]
        simp only [foldTokens]
        cases loopBody ss codes with
        | error e => rfl
        | ok c2 => simp [parseCodes_nil]
      · have hs : ss.splitOn ',' = tok :: rest.splitOn ',' := by
          rw [h1]
          apply List.splitOnP_first
          · intro x hx hx2
            simp only [beq_iff_eq] at hx2
            exact h2 (hx2 ▸ hx)
          · simp
        rw [h3, hs]
        simp only [foldTokens]
        cases loopBody tok codes with
        | error e => rfl
        | ok c2 =>
          simp only
          have hlt : rest.length ≤ n := by
            rw [h1] at hlen
            simp only [List.length_append, List.length_cons] at hlen
            omega
          exact ih rest hlt c2

/-- The loop of lines 98-119 runs the loop body over the comma-separated pieces
of the stream, in order. -/
theorem parseCodes_eq_foldTokens (ss : Str) (codes : Finset Int) :
    parseCodes ss codes = foldTokens (ss.splitOn ',') codes :=
  parseCodes_eq_foldTokens_aux ss.length ss (Nat.le_refl _) codes

/-! ## Tokens: digits, values, numerals -/

theorem isdigit_not_isspace (c : Char) (h : isdigit c = true) : isspace c = false := by
  cases hs : isspace c with
  | false => rfl
  | true =>
    exfalso
    simp only [isspace, Bool.or_eq_true, decide_eq_true_eq] at hs
    rcases hs with ((((hs | hs) | hs) | hs) | hs) | hs <;> subst hs <;> revert h <;> decide

theorem isdigit_not_sign (c : Char) (h : isdigit c = true) : c ≠ '-' ∧ c ≠ '+' := by
  constructor <;> intro hs <;> subst hs <;> revert h <;> decide

theorem isdigit_not_trim (c : Char) (h : isdigit c = true) : isTrimChar c = false := by
  cases hs : isTrimChar c with
  | false => rfl
  | true =>
    exfalso
    simp only [isTrimChar, Bool.or_eq_true, decide_eq_true_eq] at hs
    rcases hs with ((hs | hs) | hs) | hs <;> subst hs <;> revert h <;> decide

theorem isdigit_ne_comma (c : Char) (h : isdigit c = true) : c ≠ ',' := by
  intro hs; subst hs; revert h; decide

theorem isdigit_ne_brace (c : Char) (h : isdigit c = true) : c ≠ '\x7b' := by
  intro hs; subst hs; revert h; decide

/-- On a non-empty string of digits `std::stoi` returns its value, or reports
`out_of_range` when the value exceeds `INT_MAX`. -/
theorem stoi_digits (t : Str) (hne : t ≠ []) (hd : ∀ c ∈ t, isdigit c = true) :
    stoi t = if (digitsValue t : Int) ≤ INT_MAX then .value (digitsValue t) else .out_of_range := by
  obtain ⟨a, r, rfl⟩ : ∃ a r, t = a :: r := by
    cases t with
    | nil => exact absurd rfl hne
    | cons a r => exact ⟨a, r, rfl⟩
  have ha : isdigit a = true := hd a (List.mem_cons_self a r)
  have h1 : (a :: r).dropWhile isspace = a :: r := by
    simp [List.dropWhile, isdigit_not_isspace a ha]
  have h2 : (a :: r).takeWhile isdigit = a :: r := by
    rw [List.takeWhile_eq_self_iff]
    exact hd
  have hs := isdigit_not_sign a ha
  have h3 : ¬ ((a :: r).head? = some '-' ∨ (a :: r).head? = some '+') := by
    simp [hs.1, hs.2]
  have h4 : ¬ ((a :: r).head? = some '-') := by simp [hs.1]
  have hmin : ¬ ((digitsValue (a :: r) : Int) < INT_MIN) := by
    have : (0 : Int) ≤ (digitsValue (a :: r) : Int) := Int.ofNat_nonneg _
    unfold INT_MIN
    omega
  have e2 : (if (a :: r).head? = some '-' ∨ (a :: r).head? = some '+' then (a :: r).tail
      else a :: r) = a :: r := if_neg h3
  have hnil : ¬ (a :: r = []) := by simp
  unfold stoi
  simp only [h1, e2, h2, if_neg hnil, if_neg h4]
  by_cases hmax : (digitsValue (a :: r) : Int) ≤ INT_MAX
  · rw [if_pos hmax, if_neg (by omega)]
  · rw [if_neg hmax, if_pos (by omega)]

theorem stripped_of_ends (t : Str) (hh : ∀ a r, t = a :: r → isTrimChar a = false)
    (hl : ∀ r b, t = r ++ [b] → isTrimChar b = false) : stripped t = t := by
  have h1 := trim_sandwich [] t [] (by simp) (by simp) hh hl
  have h2 := trim_eq ([] ++ t ++ [])
  rw [h1] at h2
  simp only [List.nil_append, List.append_nil] at h2
  exact (Except.ok.inj h2).symm

theorem stripped_digits (t : Str) (hd : ∀ c ∈ t, isdigit c = true) : stripped t = t := by
  apply stripped_of_ends
  · intro a r h
    exact isdigit_not_trim a (hd a (by rw [h]; exact List.mem_cons_self a r))
  · intro r b h
    exact isdigit_not_trim b (hd b (by rw [h]; simp))

/-- The loop body in terms of the stripped token. -/
theorem loopBody_eq (raw : Str) (codes : Finset Int) :
    loopBody raw codes =
      if stripped raw = [] then .ok codes
      else if ¬ (stripped raw).all isdigit = true then
        .error (.InvalidInputException (msgInvalidExitCode (stripped raw)))
      else if INT_MAX < (digitsValue (stripped raw) : Int) then
        .error (.InvalidInputException (msgOutOfRange (stripped raw)))
      else .ok (insert (digitsValue (stripped raw) : Int) codes) := by
  rw [loopBody, trim_eq]
  simp only
  by_cases h0 : stripped raw = []
  · simp [h0]
  · have h0b : (stripped raw).isEmpty = false := by
      cases hs : stripped raw with
      | nil => exact absurd hs h0
      | cons a r => rfl
    rw [if_neg h0]
    simp only [h0b, Bool.false_eq_true, if_false, isNonNegativeInteger]
    by_cases h1 : (stripped raw).all isdigit = true
    · have hd : ∀ c ∈ stripped raw, isdigit c = true := by
        simpa [List.all_eq_true] using h1
      simp only [h1, Bool.not_true, Bool.false_eq_true, if_false, not_true_eq_false,
        stoi_digits _ h0 hd]
      by_cases h2 : (digitsValue (stripped raw) : Int) ≤ INT_MAX
      · rw [if_pos h2, if_neg (by omega)]
      · rw [if_neg h2, if_pos (by omega)]
    · simp [h1]

theorem digitsValue_append_single (ds : Str) (c : Char) :
    digitsValue (ds ++ [c]) = 10 * digitsValue ds + (c.toNat - 48) := by
  simp [digitsValue, List.foldl_append]

theorem digitChar_spec :
    ∀ d < 10, isdigit (Nat.digitChar d) = true ∧ (Nat.digitChar d).toNat - 48 = d := by
  decide

theorem toDigitsCore_decimal (fuel : Nat) :
    ∀ n ds, n < fuel →
      ∃ pre : Str, Nat.toDigitsCore 10 fuel n ds = pre ++ ds ∧ pre ≠ [] ∧
        (∀ c ∈ pre, isdigit c = true) ∧ digitsValue pre = n := by
  induction fuel with
  | zero => intro n ds h; omega
  | succ fuel ih =>
    intro n ds h
    have hd := digitChar_spec (n % 10) (Nat.mod_lt _ (by decide))
    unfold Nat.toDigitsCore
    simp only
    by_cases h0 : n / 10 = 0
    · rw [if_pos h0]
      refine ⟨[Nat.digitChar (n % 10)], rfl, by simp, by simpa using hd.1, ?_⟩
      have : digitsValue [Nat.digitChar (n % 10)] = (Nat.digitChar (n % 10)).toNat - 48 := by
        simp [digitsValue]
      rw [this, hd.2]
      omega
    · rw [if_neg h0]
      obtain ⟨pre, h1, _, h3, h4⟩ := ih (n / 10) (Nat.digitChar (n % 10) :: ds) (by omega)
      refine ⟨pre ++ [Nat.digitChar (n % 10)], by rw [h1]; simp, by simp, ?_, ?_⟩
      · intro c hc
        rcases List.mem_append.1 hc with hc | hc
        · exact h3 c hc
        · rw [List.mem_singleton.1 hc]; exact hd.1
      · rw [digitsValue_append_single, h4, hd.2]
        omega

/-- The decimal numeral of `n` is a non-empty string of digits with value
`n`. -/
theorem numeral_decimal (n : Nat) :
    Nat.toDigits 10 n ≠ [] ∧ (∀ c ∈ Nat.toDigits 10 n, isdigit c = true) ∧
      digitsValue (Nat.toDigits 10 n) = n := by
  obtain ⟨pre, h1, h2, h3, h4⟩ := toDigitsCore_decimal (n + 1) n [] (Nat.lt_succ_self n)
  rw [List.append_nil] at h1
  rw [Nat.toDigits, h1]
  exact ⟨h2, h3, h4⟩

/-! ## The loop in terms of tokens -/

theorem loopBody_skip (raw : Str) (codes : Finset Int) (h : stripped raw = []) :
    loopBody raw codes = .ok codes := by
  rw [loopBody_eq, if_pos h]

theorem validCode_iff (t : Str) :
    validCode t = true ↔ t ≠ [] ∧ (∀ c ∈ t, isdigit c = true) ∧ digitsValue t ≤ 2147483647 := by
  cases t with
  | nil => simp [validCode]
  | cons a r => simp [validCode, List.all_eq_true, and_assoc]

theorem loopBody_valid (raw : Str) (codes : Finset Int) (h : validCode (stripped raw) = true) :
    loopBody raw codes = .ok (insert (digitsValue (stripped raw) : Int) codes) := by
  obtain ⟨h0, h1, h2⟩ := (validCode_iff _).1 h
  have h1b : (stripped raw).all isdigit = true := List.all_eq_true.2 h1
  rw [loopBody_eq, if_neg h0, if_neg (by simp [h1b]), if_neg (by unfold INT_MAX; omega)]

theorem loopBody_nondigit (raw : Str) (codes : Finset Int) (h0 : stripped raw ≠ [])
    (h : ∃ c ∈ stripped raw, isdigit c = false) :
    loopBody raw codes = .error (.InvalidInputException (msgInvalidExitCode (stripped raw))) := by
  have h1 : ¬ (stripped raw).all isdigit = true := by
    intro ha
    obtain ⟨c, hc, hd⟩ := h
    rw [List.all_eq_true.1 ha c hc] at hd
    cases hd
  rw [loopBody_eq, if_neg h0, if_pos h1]

theorem loopBody_tooLarge (raw : Str) (codes : Finset Int) (h0 : stripped raw ≠ [])
    (hd : ∀ c ∈ stripped raw, isdigit c = true) (hv : 2147483647 < digitsValue (stripped raw)) :
    loopBody raw codes = .error (.InvalidInputException (msgOutOfRange (stripped raw))) := by
  have h1b : (stripped raw).all isdigit = true := List.all_eq_true.2 hd
  rw [loopBody_eq, if_neg h0, if_neg (by simp [h1b]), if_pos (by unfold INT_MAX; omega)]

theorem codesOf_cons_nil (toks : List Str) : codesOf ([] :: toks) = codesOf toks := by
  simp [codesOf]

theorem codesOf_cons (t : Str) (toks : List Str) (h : t ≠ []) :
    codesOf (t :: toks) = insert (digitsValue t : Int) (codesOf toks) := by
  have : (!t.isEmpty) = true := by
    cases t with
    | nil => exact absurd rfl h
    | cons a r => rfl
  simp [codesOf, List.filter_cons, this]

/-- Tokens that are empty or valid are consumed by the loop, which goes on with
the rest. -/
theorem foldTokens_good_initial (rpre rest : List Str)
    (h : ∀ r ∈ rpre, stripped r = [] ∨ validCode (stripped r) = true) :
    ∀ acc, foldTokens (rpre ++ rest) acc =
      foldTokens rest (acc ∪ codesOf (rpre.map stripped)) := by
  induction rpre with
  | nil => intro acc; simp [codesOf]
  | cons r rs ih =>
    intro acc
    have hr := h r (List.mem_cons_self r rs)
    have hrs : ∀ x ∈ rs, stripped x = [] ∨ validCode (stripped x) = true :=
      fun x hx => h x (List.mem_cons_of_mem r hx)
    rw [List.cons_append, foldTokens]
    rcases hr with hr | hr
    · rw [loopBody_skip _ _ hr]
      simp only [List.map_cons, hr, codesOf_cons_nil]
      exact ih hrs acc
    · rw [loopBody_valid _ _ hr]
      have hne := ((validCode_iff _).1 hr).1
      simp only [List.map_cons, codesOf_cons _ _ hne]
      rw [ih hrs]
      congr 1
      rw [Finset.insert_union, Finset.union_insert]

theorem foldTokens_good (raws : List Str)
    (h : ∀ r ∈ raws, stripped r = [] ∨ validCode (stripped r) = true) (acc : Finset Int) :
    foldTokens raws acc = .ok (acc ∪ codesOf (raws.map stripped)) := by
  have := foldTokens_good_initial raws [] h acc
  rw [List.append_nil] at this
  rw [this, foldTokens]

theorem foldTokens_bad (rpre : List Str) (r : Str) (rpost : List Str) (e : Thrown)
    (h : ∀ x ∈ rpre, stripped x = [] ∨ validCode (stripped x) = true)
    (hr : ∀ acc, loopBody r acc = .error e) (acc : Finset Int) :
    foldTokens (rpre ++ r :: rpost) acc = .error e := by
  rw [foldTokens_good_initial rpre _ h, foldTokens, hr]

/-- The loop never throws anything but `InvalidInputException`. -/
theorem loopBody_error (raw : Str) (codes : Finset Int) (e : Thrown)
    (h : loopBody raw codes = .error e) : ∃ msg, e = .InvalidInputException msg := by
  rw [loopBody_eq] at h
  split at h
  · cases h
  · split at h
    · cases h; exact ⟨_, rfl⟩
    · split at h
      · cases h; exact ⟨_, rfl⟩
      · cases h

theorem codesOf_ne_empty (toks : List Str) (h : ∃ t ∈ toks, t ≠ []) : codesOf toks ≠ ∅ := by
  obtain ⟨t, ht, hne⟩ := h
  have hm : (digitsValue t : Int) ∈ codesOf toks := by
    simp only [codesOf, List.mem_toFinset, List.mem_map, List.mem_filter]
    refine ⟨t, ⟨ht, ?_⟩, rfl⟩
    cases t with
    | nil => exact absurd rfl hne
    | cons a r => rfl
  intro h0
  rw [h0] at hm
  exact (Finset.not_mem_empty _ hm)

theorem codesOf_eq_empty (toks : List Str) (h : ∀ t ∈ toks, t = []) : codesOf toks = ∅ := by
  have : toks.filter (fun t => !t.isEmpty) = [] := by
    rw [List.filter_eq_nil_iff]
    intro t ht
    rw [h t ht]
    simp
  simp [codesOf, this]

theorem tokensOf_split (body : Str) (pre : List Str) (t : Str) (post : List Str)
    (h : tokensOf body = pre ++ t :: post) :
    ∃ rpre r rpost, body.splitOn ',' = rpre ++ r :: rpost ∧ rpre.map stripped = pre ∧
      stripped r = t := by
  unfold tokensOf at h
  obtain ⟨l1, l2, h1, h2, h3⟩ := List.map_eq_append_iff.1 h
  cases l2 with
  | nil => simp at h3
  | cons r l3 =>
    simp only [List.map_cons, List.cons.injEq] at h3
    exact ⟨l1, r, l3, h1, h2, h3.1⟩

/-- Parsing an annotated path whose tokens are all empty or valid, one at least
being non-empty: the command is the stripped text before the annotation and the
set is the set of the token values. -/
theorem parse_tokens_ok (c body : Str) (hm : ¬ marker <:+: body)
    (hall : ∀ t ∈ tokensOf body, t = [] ∨ validCode t = true)
    (hex : ∃ t ∈ tokensOf body, t ≠ []) :
    parseInputCommand (c ++ marker ++ body ++ ['\x7d', '|']) =
      .ok ⟨stripped c, codesOf (tokensOf body)⟩ := by
  have hall2 : ∀ r ∈ body.splitOn ',', stripped r = [] ∨ validCode (stripped r) = true := by
    intro r hr
    exact hall (stripped r) (List.mem_map_of_mem stripped hr)
  rw [parseInputCommand_annotated c body hm, parseCodes_eq_foldTokens,
    foldTokens_good _ hall2]
  simp only [Finset.empty_union]
  have hne : codesOf (List.map stripped (List.splitOn ',' body)) ≠ ∅ := codesOf_ne_empty _ hex
  rw [if_neg hne]
  rfl

/-- Parsing an annotated path stops at the first token on which the loop body
throws. -/
theorem parse_tokens_bad (c body : Str) (hm : ¬ marker <:+: body)
    (pre : List Str) (t : Str) (post : List Str) (e : Thrown)
    (hsplit : tokensOf body = pre ++ t :: post)
    (hpre : ∀ p ∈ pre, p = [] ∨ validCode p = true)
    (ht : ∀ raw acc, stripped raw = t → loopBody raw acc = .error e) :
    parseInputCommand (c ++ marker ++ body ++ ['\x7d', '|']) = .error e := by
  obtain ⟨rpre, r, rpost, h1, h2, h3⟩ := tokensOf_split body pre t post hsplit
  have hpre2 : ∀ x ∈ rpre, stripped x = [] ∨ validCode (stripped x) = true := by
    intro x hx
    apply hpre
    rw [← h2]
    exact List.mem_map_of_mem stripped hx
  rw [parseInputCommand_annotated c body hm, parseCodes_eq_foldTokens, h1,
    foldTokens_bad rpre r rpost e hpre2 (fun acc => ht r acc h3)]

/-! ## Characters of a body and of its pieces -/

theorem brace_mem_marker : '\x7b' ∈ marker := by decide

theorem not_infix_of_no_brace (body : Str) (h : '\x7b' ∉ body) : ¬ marker <:+: body := by
  intro hi
  exact h (hi.subset brace_mem_marker)

theorem mem_of_mem_splitOn (a : Char) (l : Str) :
    ∀ r ∈ l.splitOn a, ∀ x ∈ r, x ∈ l ∧ x ≠ a := by
  induction l with
  | nil =>
    intro r hr x hx
    simp only [List.splitOn_nil, List.mem_singleton] at hr
    rw [hr] at hx
    cases hx
  | cons b t ih =>
    intro r hr x hx
    unfold List.splitOn at hr ih
    rw [List.splitOnP_cons] at hr
    by_cases hb : (b == a) = true
    · rw [if_pos hb] at hr
      rcases List.mem_cons.1 hr with hr | hr
      · rw [hr] at hx; cases hx
      · have := ih r hr x hx
        exact ⟨List.mem_cons_of_mem b this.1, this.2⟩
    · rw [if_neg hb] at hr
      cases hs : List.splitOnP (fun x => x == a) t with
      | nil => exact absurd hs (List.splitOnP_ne_nil _ t)
      | cons hd tl =>
        rw [hs] at hr ih
        simp only [List.modifyHead_cons, List.mem_cons] at hr
        rcases hr with hr | hr
        · rw [hr] at hx
          rcases List.mem_cons.1 hx with hx | hx
          · rw [hx]
            refine ⟨List.mem_cons_self b t, ?_⟩
            intro e
            apply hb
            rw [e]
            simp
          · have := ih hd (List.mem_cons_self hd tl) x hx
            exact ⟨List.mem_cons_of_mem b this.1, this.2⟩
        · have := ih r (List.mem_cons_of_mem hd hr) x hx
          exact ⟨List.mem_cons_of_mem b this.1, this.2⟩

theorem mem_intercalate (a : Char) (ls : List Str) :
    ∀ x ∈ [a].intercalate ls, x = a ∨ ∃ l ∈ ls, x ∈ l := by
  induction ls with
  | nil => intro x hx; simp [List.intercalate] at hx
  | cons l rest ih =>
    intro x hx
    cases rest with
    | nil =>
      simp [List.intercalate] at hx
      exact Or.inr ⟨l, List.mem_cons_self l [], hx⟩
    | cons l2 rest2 =>
      have e : [a].intercalate (l :: l2 :: rest2) = l ++ a :: [a].intercalate (l2 :: rest2) := by
        simp [List.intercalate]
      rw [e] at hx
      rcases List.mem_append.1 hx with hx | hx
      · exact Or.inr ⟨l, List.mem_cons_self l _, hx⟩
      · rcases List.mem_cons.1 hx with hx | hx
        · exact Or.inl hx
        · rcases ih x hx with h | ⟨l3, h1, h2⟩
          · exact Or.inl h
          · exact Or.inr ⟨l3, List.mem_cons_of_mem l h1, h2⟩

theorem stripped_of_all_trim (r : Str) (h : ∀ x ∈ r, isTrimChar x = true) : stripped r = [] := by
  have : r.dropWhile isTrimChar = [] := List.dropWhile_eq_nil_iff.2 h
  rw [stripped, this]
  rfl

theorem codesOf_numerals (ns : List Nat) :
    codesOf (ns.map (Nat.toDigits 10)) = (ns.map Int.ofNat).toFinset := by
  induction ns with
  | nil => rfl
  | cons n rest ih =>
    rw [List.map_cons, codesOf_cons _ _ (numeral_decimal n).1, ih, (numeral_decimal n).2.2,
      List.map_cons, List.toFinset_cons]
    rfl

theorem tokensOf_numerals (ns : List Nat) (hne : ns ≠ []) :
    tokensOf ([','].intercalate (ns.map (Nat.toDigits 10))) = ns.map (Nat.toDigits 10) := by
  have hs : ([','].intercalate (ns.map (Nat.toDigits 10))).splitOn ',' =
      ns.map (Nat.toDigits 10) := by
    apply List.splitOn_intercalate
    · intro l hl hc
      obtain ⟨n, _, rfl⟩ := List.mem_map.1 hl
      exact isdigit_ne_comma _ ((numeral_decimal n).2.1 _ hc) rfl
    · simpa using hne
  rw [tokensOf, hs, List.map_map]
  apply List.map_congr_left
  intro n _
  exact stripped_digits _ (numeral_decimal n).2.1

theorem loopBody_ok_good (raw : Str) (acc s : Finset Int) (h : loopBody raw acc = .ok s) :
    stripped raw = [] ∨ validCode (stripped raw) = true := by
  rw [loopBody_eq] at h
  by_cases h0 : stripped raw = []
  · exact Or.inl h0
  · right
    rw [if_neg h0] at h
    by_cases h1 : (stripped raw).all isdigit = true
    · rw [if_neg (by simp [h1])] at h
      by_cases h2 : INT_MAX < (digitsValue (stripped raw) : Int)
      · rw [if_pos h2] at h; cases h
      · rw [validCode_iff]
        refine ⟨h0, List.all_eq_true.1 h1, ?_⟩
        unfold INT_MAX at h2
        omega
    · rw [if_pos h1] at h; cases h

theorem foldTokens_ok_good (raws : List Str) :
    ∀ acc s, foldTokens raws acc = .ok s →
      ∀ r ∈ raws, stripped r = [] ∨ validCode (stripped r) = true := by
  induction raws with
  | nil => intro acc s _ r hr; cases hr
  | cons a rest ih =>
    intro acc s h r hr
    rw [foldTokens] at h
    cases hl : loopBody a acc with
    | error e => rw [hl] at h; cases h
    | ok acc2 =>
      rw [hl] at h
      rcases List.mem_cons.1 hr with hr | hr
      · rw [hr]; exact loopBody_ok_good a acc acc2 hl
      · exact ih acc2 s h r hr

theorem foldTokens_error (raws : List Str) :
    ∀ acc e, foldTokens raws acc = .error e → ∃ msg, e = .InvalidInputException msg := by
  induction raws with
  | nil => intro acc e h; cases h
  | cons a rest ih =>
    intro acc e h
    rw [foldTokens] at h
    cases hl : loopBody a acc with
    | error e2 =>
      rw [hl] at h
      cases h
      exact loopBody_error a acc e hl
    | ok acc2 =>
      rw [hl] at h
      exact ih acc2 e h

/-! ## Wait statuses -/

theorem WIFEXITED_neg_one : WIFEXITED (-1) = false ∧ WIFSIGNALED (-1) = false := by decide

theorem not_exited_of_signaled (status : Int) (h : WIFSIGNALED status = true) :
    WIFEXITED status = false := by
  cases he : WIFEXITED status with
  | false => rfl
  | true =>
    exfalso
    simp only [WIFEXITED, decide_eq_true_eq] at he
    simp only [WIFSIGNALED, he] at h
    revert h
    decide

theorem ne_neg_one_of_exited (status : Int) (h : WIFEXITED status = true) : status ≠ -1 := by
  intro e
  rw [e] at h
  revert h
  decide

theorem ne_neg_one_of_signaled (status : Int) (h : WIFSIGNALED status = true) : status ≠ -1 := by
  intro e
  rw [e] at h
  revert h
  decide

theorem interpretStatus_failed (h : ShellFileHandle) (err : Str) :
    interpretStatus h (-1) err = .error (.IOException (msgCouldNotClose h.path err)) := by
  simp [interpretStatus]

theorem interpretStatus_exited_ok (h : ShellFileHandle) (result : Int) (err : Str)
    (he : WIFEXITED result = true) (hs : WEXITSTATUS result ∈ h.allowed_exit_codes) :
    interpretStatus h result err = .ok () := by
  simp [interpretStatus, ne_neg_one_of_exited result he, he, hs]

theorem interpretStatus_exited_bad (h : ShellFileHandle) (result : Int) (err : Str)
    (he : WIFEXITED result = true) (hs : WEXITSTATUS result ∉ h.allowed_exit_codes) :
    interpretStatus h result err =
      .error (.IOException (msgExitedAbnormally (WEXITSTATUS result) h.path)) := by
  simp [interpretStatus, ne_neg_one_of_exited result he, he, hs]

theorem interpretStatus_signaled (h : ShellFileHandle) (result : Int) (err : Str)
    (hsig : WIFSIGNALED result = true) :
    interpretStatus h result err =
      .error (.IOException (msgSignal (WTERMSIG result) h.path)) := by
  simp [interpretStatus, ne_neg_one_of_signaled result hsig, not_exited_of_signaled result hsig,
    hsig]

theorem interpretStatus_other (h : ShellFileHandle) (result : Int) (err : Str)
    (h1 : result ≠ -1) (he : WIFEXITED result = false) (hsig : WIFSIGNALED result = false) :
    interpretStatus h result err = .ok () := by
  simp [interpretStatus, h1, he, hsig]

theorem tokensOf_digits (t : Str) (hd : ∀ ch ∈ t, isdigit ch = true) : tokensOf t = [t] := by
  have hs : t.splitOn ',' = [t] := by
    apply List.splitOnP_eq_single
    intro x hx hx2
    simp only [beq_iff_eq] at hx2
    exact isdigit_ne_comma x (hd x hx) hx2
  rw [tokensOf, hs, List.map_cons, List.map_nil, stripped_digits t hd]

/-! ## The write loop -/

theorem writeLoop_done (fw : Nat → Int → Int → Int) (path : Str) (pipe : Nat) (err : Str) (i : Nat)
    (buf rem bw : Int) (hrem : ¬ 0 < rem) :
    writeLoop fw path pipe err i buf rem bw = (.ok bw, []) := by
  rw [writeLoop, dif_neg hrem]

theorem writeLoop_fail (fw : Nat → Int → Int → Int) (path : Str) (pipe : Nat) (err : Str) (i : Nat)
    (buf rem bw : Int) (hrem : 0 < rem) (hc : fw i buf (min 2147483647 rem) ≤ 0) :
    writeLoop fw path pipe err i buf rem bw =
      (.error (.IOException (msgCouldNotWrite path err)),
        [.fwrite pipe buf (min 2147483647 rem)]) := by
  rw [writeLoop, dif_pos hrem, dif_pos hc]

theorem writeLoop_step (fw : Nat → Int → Int → Int) (path : Str) (pipe : Nat) (err : Str) (i : Nat)
    (buf rem bw : Int) (hrem : 0 < rem) (hc : ¬ fw i buf (min 2147483647 rem) ≤ 0) :
    writeLoop fw path pipe err i buf rem bw =
      ((writeLoop fw path pipe err (i + 1) (buf + fw i buf (min 2147483647 rem))
          (rem - fw i buf (min 2147483647 rem)) (bw + fw i buf (min 2147483647 rem))).1,
        .fwrite pipe buf (min 2147483647 rem) ::
          (writeLoop fw path pipe err (i + 1) (buf + fw i buf (min 2147483647 rem))
            (rem - fw i buf (min 2147483647 rem)) (bw + fw i buf (min 2147483647 rem))).2) := by
  rw [writeLoop, dif_pos hrem, dif_neg hc]

/-- The loop from any state, when the primitive never reports more than it was
offered: every call is offered the bytes not yet accepted, capped at
2147483647; the loop throws when a call gives back a non-positive count and
otherwise returns the running total plus all the remaining bytes. -/
theorem writeLoop_spec (fw : Nat → Int → Int → Int) (path : Str) (pipe : Nat) (err : Str)
    (hfw : ∀ i off n, fw i off n ≤ n) (n : Nat) :
    ∀ (i : Nat) (buf rem bw : Int), rem.toNat ≤ n → 0 ≤ rem →
      (∀ k, k < (writeLoop fw path pipe err i buf rem bw).2.length →
        (writeLoop fw path pipe err i buf rem bw).2[k]? =
          some (.fwrite pipe
            (buf + ((acceptedFrom fw i (writeLoop fw path pipe err i buf rem bw).2).take k).sum)
            (min 2147483647
              (rem - ((acceptedFrom fw i (writeLoop fw path pipe err i buf rem bw).2).take k).sum)))) ∧
      ((∃ a ∈ acceptedFrom fw i (writeLoop fw path pipe err i buf rem bw).2, a ≤ 0) →
        (writeLoop fw path pipe err i buf rem bw).1 =
          .error (.IOException (msgCouldNotWrite path err))) ∧
      ((∀ a ∈ acceptedFrom fw i (writeLoop fw path pipe err i buf rem bw).2, 0 < a) →
        (writeLoop fw path pipe err i buf rem bw).1 = .ok (bw + rem) ∧
        (acceptedFrom fw i (writeLoop fw path pipe err i buf rem bw).2).sum = rem) := by
  induction n with
  | zero =>
    intro i buf rem bw hn h0
    have hrem : rem = 0 := by omega
    subst hrem
    rw [writeLoop_done fw path pipe err i buf 0 bw (by omega)]
    refine ⟨?_, ?_, ?_⟩
    · intro k hk; simp at hk
    · rintro ⟨a, ha, _⟩; simp [acceptedFrom] at ha
    · intro _; simp [acceptedFrom]
  | succ n ih =>
    intro i buf rem bw hn h0
    by_cases hrem : 0 < rem
    · by_cases hc : fw i buf (min 2147483647 rem) ≤ 0
      · rw [writeLoop_fail fw path pipe err i buf rem bw hrem hc]
        refine ⟨?_, ?_, ?_⟩
        · intro k hk
          have hk0 : k = 0 := by simpa using hk
          subst hk0
          simp
        · intro _; rfl
        · intro hall
          exfalso
          have := hall (fw i buf (min 2147483647 rem)) (by simp [acceptedFrom, acceptedAt])
          omega
      · rw [writeLoop_step fw path pipe err i buf rem bw hrem hc]
        have hle : fw i buf (min 2147483647 rem) ≤ rem :=
          le_trans (hfw i buf _) (min_le_right _ _)
        have hih := ih (i + 1) (buf + fw i buf (min 2147483647 rem))
          (rem - fw i buf (min 2147483647 rem)) (bw + fw i buf (min 2147483647 rem))
          (by omega) (by omega)
        obtain ⟨h1, h2, h3⟩ := hih
        generalize writeLoop fw path pipe err (i + 1) (buf + fw i buf (min 2147483647 rem))
          (rem - fw i buf (min 2147483647 rem)) (bw + fw i buf (min 2147483647 rem)) = r at h1 h2 h3
        generalize hcur : fw i buf (min 2147483647 rem) = cur at h1 h2 h3 hc hle
        have hacc : acceptedFrom fw i (SysCall.fwrite pipe buf (min 2147483647 rem) :: r.2) =
            cur :: acceptedFrom fw (i + 1) r.2 := by
          simp [acceptedFrom, acceptedAt, hcur]
        simp only [hacc]
        refine ⟨?_, ?_, ?_⟩
        · intro k hk
          cases k with
          | zero => simp
          | succ k =>
            have hk2 : k < r.2.length := by simpa using hk
            simp only [List.getElem?_cons_succ, List.take_succ_cons, List.sum_cons]
            rw [h1 k hk2]
            congr 2
            · omega
            · congr 1; omega
        · rintro ⟨a, ha, hle0⟩
          rcases List.mem_cons.1 ha with ha | ha
          · omega
          · exact h2 ⟨a, ha, hle0⟩
        · intro hall
          have := h3 (fun a ha => hall a (List.mem_cons_of_mem _ ha))
          refine ⟨?_, ?_⟩
          · rw [this.1]; congr 1; omega
          · rw [List.sum_cons, this.2]; omega
    · have hrem0 : rem = 0 := by omega
      subst hrem0
      rw [writeLoop_done fw path pipe err i buf 0 bw (by omega)]
      refine ⟨?_, ?_, ?_⟩
      · intro k hk; simp at hk
      · rintro ⟨a, ha, _⟩; simp [acceptedFrom] at ha
      · intro _; simp [acceptedFrom]

/-- Every call the loop makes offers a positive count. -/
theorem writeLoop_counts_pos (fw : Nat → Int → Int → Int) (path : Str) (pipe : Nat) (err : Str)
    (n : Nat) :
    ∀ (i : Nat) (buf rem bw : Int), rem.toNat ≤ n →
      ∀ call ∈ (writeLoop fw path pipe err i buf rem bw).2,
        ∃ off cnt, call = .fwrite pipe off cnt ∧ 0 < cnt := by
  induction n with
  | zero =>
    intro i buf rem bw hn call hcall
    rw [writeLoop_done fw path pipe err i buf rem bw (by omega)] at hcall
    cases hcall
  | succ n ih =>
    intro i buf rem bw hn call hcall
    by_cases hrem : 0 < rem
    · have hcnt : (0 : Int) < min 2147483647 rem := lt_min (by decide) hrem
      by_cases hc : fw i buf (min 2147483647 rem) ≤ 0
      · rw [writeLoop_fail fw path pipe err i buf rem bw hrem hc] at hcall
        rw [List.mem_singleton.1 hcall]
        exact ⟨buf, _, rfl, hcnt⟩
      · rw [writeLoop_step fw path pipe err i buf rem bw hrem hc] at hcall
        rcases List.mem_cons.1 hcall with hcall | hcall
        · exact ⟨buf, _, hcall, hcnt⟩
        · exact ih _ _ _ _ (by omega) call hcall
    · rw [writeLoop_done fw path pipe err i buf rem bw hrem] at hcall
      cases hcall

theorem acceptedFrom_mem (fw : Nat → Int → Int → Int) (calls : List SysCall) :
    ∀ (i : Nat) (a : Int), a ∈ acceptedFrom fw i calls →
      ∃ k, ∃ call ∈ calls, a = acceptedAt fw k call := by
  induction calls with
  | nil => intro i a ha; simp [acceptedFrom] at ha
  | cons c cs ih =>
    intro i a ha
    rw [acceptedFrom] at ha
    rcases List.mem_cons.1 ha with ha | ha
    · exact ⟨i, c, List.mem_cons_self c cs, ha⟩
    · obtain ⟨k, call, hcall, hk⟩ := ih (i + 1) a ha
      exact ⟨k, call, List.mem_cons_of_mem c hcall, hk⟩

/-! ## Annotated paths built from numerals -/

theorem last_marker_split_aux (n : Nat) :
    ∀ c body : Str, body.length ≤ n →
      ∃ c2 body2, c ++ marker ++ body = c2 ++ marker ++ body2 ∧ ¬ marker <:+: body2 := by
  induction n with
  | zero =>
    intro c body hlen
    refine ⟨c, body, rfl, ?_⟩
    intro hi
    have := hi.length_le
    rw [marker_length] at this
    omega
  | succ n ih =>
    intro c body hlen
    by_cases hi : marker <:+: body
    · obtain ⟨x, y, hxy⟩ := hi
      have hy : y.length ≤ n := by
        have : body.length = x.length + marker.length + y.length := by
          rw [← hxy]; simp only [List.length_append]
        rw [marker_length] at this
        omega
      obtain ⟨c2, body2, h1, h2⟩ := ih (c ++ marker ++ x) y hy
      refine ⟨c2, body2, ?_, h2⟩
      rw [← h1, ← hxy]
      simp only [List.append_assoc]
    · exact ⟨c, body, rfl, hi⟩

/-- A text that contains the marker text splits at its last occurrence. -/
theorem last_marker_split (q : Str) (hq : marker <:+: q) :
    ∃ c body, q = c ++ marker ++ body ∧ ¬ marker <:+: body := by
  obtain ⟨x, y, hxy⟩ := hq
  obtain ⟨c, body, h1, h2⟩ := last_marker_split_aux y.length x y (Nat.le_refl _)
  exact ⟨c, body, by rw [← hxy, h1], h2⟩

/-- The text before the final pipe marker either has no annotation at its end or
is `c`, the marker text, a body free of the marker text and a closing brace. -/
theorem plain_or_annotated (p : Str) :
    (p.getLast? ≠ some '\x7d' ∨ ¬ marker <:+: p.dropLast) ∨
      ∃ c body, p = c ++ marker ++ body ++ ['\x7d'] ∧ ¬ marker <:+: body := by
  by_cases h1 : p.getLast? = some '\x7d'
  · by_cases h2 : marker <:+: p.dropLast
    · right
      obtain ⟨c, body, h3, h4⟩ := last_marker_split _ h2
      refine ⟨c, body, ?_, h4⟩
      rw [← h3]
      exact (List.dropLast_append_getLast? '\x7d' h1).symm
    · exact Or.inl (Or.inr h2)
  · exact Or.inl (Or.inl h1)

theorem parseInputCommand_no_marker (input : Str)
    (h : input = [] ∨ input.getLast? ≠ some '|') :
    parseInputCommand input = .error (.InvalidInputException msgMustEnd) := by
  rw [parseInputCommand, if_pos]
  rcases h with h | h
  · left; rw [h]; rfl
  · right; exact h

/-- What the loop returns when it does not throw. -/
theorem parseCodes_ok (body : Str) (codes : Finset Int) (h : parseCodes body ∅ = .ok codes) :
    codes = codesOf (tokensOf body) ∧ ∀ t ∈ tokensOf body, t = [] ∨ validCode t = true := by
  rw [parseCodes_eq_foldTokens] at h
  have hgood := foldTokens_ok_good _ _ _ h
  have := foldTokens_good _ hgood ∅
  rw [h, Finset.empty_union] at this
  refine ⟨Except.ok.inj this, ?_⟩
  intro t ht
  obtain ⟨r, hr, rfl⟩ := List.mem_map.1 ht
  exact hgood r hr

theorem parseCodes_error (body : Str) (e : Thrown) (h : parseCodes body ∅ = .error e) :
    ∃ msg, e = .InvalidInputException msg := by
  rw [parseCodes_eq_foldTokens] at h
  exact foldTokens_error _ _ _ h

theorem codesOf_mem (toks : List Str) (v : Int) (hv : v ∈ codesOf toks) :
    ∃ t ∈ toks, t ≠ [] ∧ v = (digitsValue t : Int) := by
  simp only [codesOf, List.mem_toFinset, List.mem_map, List.mem_filter] at hv
  obtain ⟨t, ⟨ht, hne⟩, rfl⟩ := hv
  refine ⟨t, ht, ?_, rfl⟩
  intro h0
  rw [h0] at hne
  simp at hne

/-- Every successful parse has one of two shapes: the default one, or the one
of an annotation whose tokens are all empty or valid. -/
theorem parseInputCommand_ok_shape (input : Str) (r : ParsedInputCommand)
    (h : parseInputCommand input = .ok r) :
    (∃ p, input = p ++ ['|'] ∧ r = ⟨stripped p, {0}⟩) ∨
      ∃ c body, input = c ++ marker ++ body ++ ['\x7d', '|'] ∧ ¬ marker <:+: body ∧
        r = ⟨stripped c, codesOf (tokensOf body)⟩ ∧ codesOf (tokensOf body) ≠ ∅ ∧
        ∀ t ∈ tokensOf body, t = [] ∨ validCode t = true := by
  by_cases hend : input = [] ∨ input.getLast? ≠ some '|'
  · rw [parseInputCommand_no_marker input hend] at h
    cases h
  · have hlast : input.getLast? = some '|' := by
      by_contra hc
      exact hend (Or.inr hc)
    have hp : input.dropLast ++ ['|'] = input := List.dropLast_append_getLast? '|' hlast
    rcases plain_or_annotated input.dropLast with hpl | ⟨c, body, hcb, hm⟩
    · left
      have := parseInputCommand_plain input.dropLast hpl
      rw [hp, h] at this
      exact ⟨input.dropLast, hp.symm, Except.ok.inj this⟩
    · right
      have hin : input = c ++ marker ++ body ++ ['\x7d', '|'] := by
        rw [← hp, hcb]
        simp only [List.append_assoc, List.singleton_append]
      have hpa := parseInputCommand_annotated c body hm
      rw [← hin, h] at hpa
      cases hpc : parseCodes body ∅ with
      | error e => rw [hpc] at hpa; cases hpa
      | ok codes =>
        rw [hpc] at hpa
        simp only at hpa
        by_cases hempty : codes = ∅
        · rw [if_pos hempty] at hpa; cases hpa
        · rw [if_neg hempty] at hpa
          obtain ⟨hcodes, hall⟩ := parseCodes_ok body codes hpc
          refine ⟨c, body, hin, hm, ?_, ?_, hall⟩
          · rw [← hcodes]; exact Except.ok.inj hpa
          · rw [← hcodes]; exact hempty

/-- The parser throws nothing but `InvalidInputException`. -/
theorem parseInputCommand_error_kind (input : Str) (e : Thrown)
    (h : parseInputCommand input = .error e) : ∃ msg, e = .InvalidInputException msg := by
  by_cases hend : input = [] ∨ input.getLast? ≠ some '|'
  · rw [parseInputCommand_no_marker input hend] at h
    cases h
    exact ⟨_, rfl⟩
  · have hlast : input.getLast? = some '|' := by
      by_contra hc
      exact hend (Or.inr hc)
    have hp : input.dropLast ++ ['|'] = input := List.dropLast_append_getLast? '|' hlast
    rcases plain_or_annotated input.dropLast with hpl | ⟨c, body, hcb, hm⟩
    · have := parseInputCommand_plain input.dropLast hpl
      rw [hp, h] at this
      cases this
    · have hin : input = c ++ marker ++ body ++ ['\x7d', '|'] := by
        rw [← hp, hcb]
        simp only [List.append_assoc, List.singleton_append]
      have hpa := parseInputCommand_annotated c body hm
      rw [← hin, h] at hpa
      cases hpc : parseCodes body ∅ with
      | error e2 =>
        rw [hpc] at hpa
        cases hpa
        exact parseCodes_error body e hpc
      | ok codes =>
        rw [hpc] at hpa
        simp only at hpa
        by_cases hempty : codes = ∅
        · rw [if_pos hempty] at hpa
          cases hpa
          exact ⟨_, rfl⟩
        · rw [if_neg hempty] at hpa; cases hpa

/-! ## Indices of the annotation -/

/-- The marker text found by the search of line 86 ends at or before the closing
brace found by the search of line 83. -/
theorem annotation_indices (input : Str) (cb ob : Nat)
    (hcb : rfindChar input '\x7d' (input.length - 1) = some cb)
    (hob : rfind input marker cb = some ob) :
    ob + marker.length ≤ cb ∧ cb < input.length := by
  have h1 := (rfindChar_sound _ _ _ _ hcb).2
  have h2 := rfind_sound _ _ _ _ hob
  have hlt : cb < input.length := by
    by_contra hge
    rw [List.getElem?_eq_none (by omega)] at h1
    cases h1
  refine ⟨?_, hlt⟩
  by_contra hlt2
  obtain ⟨t, ht⟩ := h2.2
  have hk : cb - ob < marker.length := by omega
  have h3 : (input.drop ob)[cb - ob]? = some '\x7d' := by
    rw [List.getElem?_drop, show ob + (cb - ob) = cb by omega]
    exact h1
  rw [← ht, List.getElem?_append_left hk] at h3
  exact brace_not_mem_marker (List.getElem?_mem h3)

theorem stoi_not_invalid (t : Str) (h : isNonNegativeInteger t = true) :
    stoi t = .value (digitsValue t) ∨ stoi t = .out_of_range := by
  have hne : t ≠ [] := by
    intro h0
    rw [h0] at h
    simp [isNonNegativeInteger] at h
  have hd : ∀ c ∈ t, isdigit c = true := by
    cases t with
    | nil => exact absurd rfl hne
    | cons a r =>
      simp only [isNonNegativeInteger, List.isEmpty_cons, Bool.false_eq_true, if_false] at h
      exact List.all_eq_true.1 h
  rw [stoi_digits t hne hd]
  by_cases hv : (digitsValue t : Int) ≤ INT_MAX
  · left; rw [if_pos hv]
  · right; rw [if_neg hv]

/-! ## Whitespace and empty tokens -/

theorem stripped_idem (s : Str) : stripped (stripped s) = stripped s :=
  stripped_of_ends (stripped s) (stripped_head s) (stripped_last s)

theorem loopBody_stripped (raw : Str) (acc : Finset Int) :
    loopBody (stripped raw) acc = loopBody raw acc := by
  rw [loopBody_eq, loopBody_eq, stripped_idem]

/-- The loop sees only the non-empty stripped tokens. -/
theorem foldTokens_filter (raws : List Str) :
    ∀ acc, foldTokens raws acc =
      foldTokens ((raws.map stripped).filter (fun t => !t.isEmpty)) acc := by
  induction raws with
  | nil => intro acc; rfl
  | cons r rs ih =>
    intro acc
    by_cases h0 : stripped r = []
    · have hf : ((r :: rs).map stripped).filter (fun t => !t.isEmpty) =
          (rs.map stripped).filter (fun t => !t.isEmpty) := by
        simp [List.filter_cons, h0]
      rw [hf, foldTokens, loopBody_skip r acc h0]
      exact ih acc
    · have hne : (!(stripped r).isEmpty) = true := by
        cases hs : stripped r with
        | nil => exact absurd hs h0
        | cons a t => rfl
      have hf : ((r :: rs).map stripped).filter (fun t => !t.isEmpty) =
          stripped r :: (rs.map stripped).filter (fun t => !t.isEmpty) := by
        simp [List.filter_cons, hne]
      rw [hf, foldTokens, foldTokens, loopBody_stripped]
      cases loopBody r acc with
      | error e => rfl
      | ok acc2 => exact ih acc2

/-- Stripping a text that ends with a piece `r` whose first and last characters
are not whitespace removes only the leading whitespace. -/
theorem stripped_append_core (c r : Str) (a b : Char)
    (hr1 : ∃ s, r = a :: s) (hr2 : ∃ s, r = s ++ [b])
    (ha : isTrimChar a = false) (hb : isTrimChar b = false) :
    stripped (c ++ r) = c.dropWhile isTrimChar ++ r := by
  obtain ⟨s1, h1⟩ := hr1
  obtain ⟨s2, h2⟩ := hr2
  have hd : (c ++ r).dropWhile isTrimChar = c.dropWhile isTrimChar ++ r := by
    rw [List.dropWhile_append]
    have hdr : r.dropWhile isTrimChar = r := by
      rw [h1]
      simp [List.dropWhile, ha]
    split
    · next he =>
      rw [hdr]
      rw [List.isEmpty_iff] at he
      rw [he, List.nil_append]
    · rfl
  rw [stripped, hd, h2, ← List.append_assoc, List.rdropWhile_concat_neg]
  simp [hb]

theorem stripped_length_le (c : Str) : (stripped c).length ≤ (c.dropWhile isTrimChar).length :=
  List.IsPrefix.length_le ( List.rdropWhile_prefix isTrimChar (c.dropWhile isTrimChar))

/-- The command of the annotation branch is never the command of the default
branch. -/
theorem stripped_ne_default (c body : Str) :
    stripped c ≠ stripped (c ++ marker ++ body ++ ['\x7d']) := by
  intro h
  have hm : ∃ s, marker ++ body ++ ['\x7d'] = '\x7b' :: s := by
    have : marker = '\x7b' :: marker.tail := by decide
    refine ⟨marker.tail ++ body ++ ['\x7d'], ?_⟩
    conv_lhs => rw [this]
    simp only [List.cons_append, List.append_assoc]
  have hcore := stripped_append_core c (marker ++ body ++ ['\x7d']) '\x7b' '\x7d' hm
    ⟨marker ++ body, rfl⟩ (by decide) (by decide)
  have hlen := stripped_length_le c
  rw [List.append_assoc, List.append_assoc, ← List.append_assoc marker, hcore] at h
  rw [h] at hlen
  simp only [List.length_append, List.length_cons, List.length_nil] at hlen
  omega

/-! # The properties -/

/-- C1: for every command text `c` and every non-empty list of naturals, each at
most 2147483647, the parser applied to `c`, the marker text, the decimal
numerals joined by commas and the closing `}|` succeeds, with the command `c`
stripped of surrounding whitespace and the accepted set the set of the numbers
(duplicates collapse). -/
theorem C1_annotation_parses (c : Str) (ns : List Nat) (hne : ns ≠ [])
    (hmax : ∀ n ∈ ns, n ≤ 2147483647) :
    parseInputCommand
        (c ++ "\x7ballowed_exit_codes=".toList ++ [','].intercalate (ns.map (Nat.toDigits 10)) ++
          "\x7d|".toList) =
      .ok ⟨stripped c, (ns.map Int.ofNat).toFinset⟩ := by
  have htok := tokensOf_numerals ns hne
  have hm : ¬ marker <:+: [','].intercalate (ns.map (Nat.toDigits 10)) := by
    apply not_infix_of_no_brace
    intro hb
    rcases mem_intercalate ',' _ _ hb with h | ⟨l, hl, hx⟩
    · revert h; decide
    · obtain ⟨n, _, rfl⟩ := List.mem_map.1 hl
      exact isdigit_ne_brace _ ((numeral_decimal n).2.1 _ hx) rfl
  have hall : ∀ t ∈ tokensOf ([','].intercalate (ns.map (Nat.toDigits 10))),
      t = [] ∨ validCode t = true := by
    intro t ht
    rw [htok] at ht
    obtain ⟨n, hn, rfl⟩ := List.mem_map.1 ht
    right
    rw [validCode_iff]
    have := numeral_decimal n
    exact ⟨this.1, this.2.1, by rw [this.2.2]; exact hmax n hn⟩
  have hex : ∃ t ∈ tokensOf ([','].intercalate (ns.map (Nat.toDigits 10))), t ≠ [] := by
    rw [htok]
    cases ns with
    | nil => exact absurd rfl hne
    | cons n rest => exact ⟨Nat.toDigits 10 n, List.mem_cons_self _ _, (numeral_decimal n).1⟩
  have := parse_tokens_ok c _ hm hall hex
  rw [htok, codesOf_numerals] at this
  exact this

/-- C1 at `cmd{allowed_exit_codes=2,130,2}|`: command `cmd`, set `{2, 130}`. -/
theorem C1_annotation_parses_witness :
    parseInputCommand "cmd\x7ballowed_exit_codes=2,130,2\x7d|".toList =
      .ok ⟨"cmd".toList, {2, 130}⟩ := by
  have h := C1_annotation_parses "cmd".toList [2, 130, 2] (by decide) (by decide)
  have e1 : "cmd".toList ++ "\x7ballowed_exit_codes=".toList ++
      [','].intercalate (List.map (Nat.toDigits 10) [2, 130, 2]) ++ "\x7d|".toList =
      "cmd\x7ballowed_exit_codes=2,130,2\x7d|".toList := by decide
  have e2 : stripped "cmd".toList = "cmd".toList := by decide
  have e3 : (List.map Int.ofNat [2, 130, 2]).toFinset = ({2, 130} : Finset Int) := by decide
  rw [e1, e2, e3] at h
  exact h

/-- C2: on a path that ends with the pipe marker and has no annotation next to
it (the character before the marker is not a closing brace, or the marker text
does not occur before that brace) the parser succeeds with the accepted set
`{0}` and the command the path without its last character, stripped. -/
theorem C2_default_set (path : Str) (hlast : path.getLast? = some '|')
    (hno : path.dropLast.getLast? ≠ some '\x7d' ∨
      ¬ "\x7ballowed_exit_codes=".toList <:+: path.dropLast.dropLast) :
    parseInputCommand path = .ok ⟨stripped path.dropLast, {0}⟩ := by
  have hp : path.dropLast ++ ['|'] = path := List.dropLast_append_getLast? '|' hlast
  have := parseInputCommand_plain path.dropLast hno
  rw [hp] at this
  exact this

/-- C2 at `cmd{allowed_exit_codes=3} |`, where the annotation is not next to the
marker and the whole text before the marker is the command, and at
`echo ${x}|`, where no marker text precedes the closing brace. -/
theorem C2_default_set_witness :
    parseInputCommand "cmd\x7ballowed_exit_codes=3\x7d |".toList =
        .ok ⟨"cmd\x7ballowed_exit_codes=3\x7d".toList, {0}⟩ ∧
      parseInputCommand "echo $\x7bx\x7d|".toList = .ok ⟨"echo $\x7bx\x7d".toList, {0}⟩ :=
  ⟨C2_default_set "cmd\x7ballowed_exit_codes=3\x7d |".toList (by decide) (Or.inl (by decide)),
    C2_default_set "echo $\x7bx\x7d|".toList (by decide) (Or.inr (by decide))⟩

/-- C4: on an annotated path (`body` is the text between the last occurrence of
the marker text and the final closing brace) whose tokens include a non-empty
one with a character that is not a digit, the parser throws an
`InvalidInputException`; when every earlier token is empty or a valid code the
exception is the invalid-exit-code one with that token in its message. -/
theorem C4_non_digit_token (c body : Str)
    (hm : ¬ "\x7ballowed_exit_codes=".toList <:+: body) :
    ((∃ t ∈ tokensOf body, t ≠ [] ∧ ∃ ch ∈ t, isdigit ch = false) →
      ∃ msg, parseInputCommand (c ++ "\x7ballowed_exit_codes=".toList ++ body ++ "\x7d|".toList) =
        .error (.InvalidInputException msg)) ∧
    (∀ pre t post, tokensOf body = pre ++ t :: post →
      (∀ p ∈ pre, p = [] ∨ validCode p = true) → t ≠ [] → (∃ ch ∈ t, isdigit ch = false) →
      parseInputCommand (c ++ "\x7ballowed_exit_codes=".toList ++ body ++ "\x7d|".toList) =
        .error (.InvalidInputException
          ("Invalid exit code: \x27".toList ++ t ++
            "\x27. Must be a non-negative integer.".toList))) := by
  constructor
  · rintro ⟨t, ht, hne, ch, hch, hd⟩
    obtain ⟨r, hr, rfl⟩ := List.mem_map.1 ht
    have hpa := parseInputCommand_annotated c body hm
    rw [parseCodes_eq_foldTokens] at hpa
    cases hf : foldTokens (body.splitOn ',') ∅ with
    | error e =>
      rw [hf] at hpa
      obtain ⟨msg, rfl⟩ := foldTokens_error _ _ _ hf
      exact ⟨msg, hpa⟩
    | ok s =>
      exfalso
      rcases foldTokens_ok_good _ _ _ hf r hr with h0 | hv
      · exact hne h0
      · have := ((validCode_iff _).1 hv).2.1 ch hch
        rw [this] at hd
        cases hd
  · intro pre t post hsplit hpre hne hbad
    apply parse_tokens_bad c body hm pre t post _ hsplit hpre
    intro raw acc hraw
    subst hraw
    exact loopBody_nondigit raw acc hne hbad

/-- C4 at `cmd{allowed_exit_codes=abc}|`: the exception names `abc`. -/
theorem C4_non_digit_token_witness :
    parseInputCommand "cmd\x7ballowed_exit_codes=abc\x7d|".toList =
      .error (.InvalidInputException
        "Invalid exit code: \x27abc\x27. Must be a non-negative integer.".toList) :=
  (C4_non_digit_token "cmd".toList "abc".toList
      (not_infix_of_no_brace _ (by decide))).2 [] "abc".toList [] (by decide)
    (by decide) (by decide) ⟨'a', by decide, by decide⟩

/-- C5: `CanHandleFile` is true exactly for the non-empty paths whose first or
last character is the pipe marker; it is true for `|echo hi` and `echo hi|`,
false for `echo hi` and for the empty string. -/
theorem C5_can_handle (path : Str) :
    (CanHandleFile path = true ↔
      path ≠ [] ∧ (path.head? = some '|' ∨ path.getLast? = some '|')) ∧
    CanHandleFile "|echo hi".toList = true ∧ CanHandleFile "echo hi|".toList = true ∧
    CanHandleFile "echo hi".toList = false ∧ CanHandleFile "".toList = false := by
  refine ⟨?_, by decide, by decide, by decide, by decide⟩
  cases path with
  | nil => simp [CanHandleFile]
  | cons a r =>
    simp only [CanHandleFile, List.isEmpty_cons, Bool.false_eq_true, if_false, Bool.or_eq_true,
      decide_eq_true_eq, ne_eq, not_false_eq_true, true_and, reduceCtorEq]
    exact Or.comm

/-- C6: on a path that is empty or does not end with the pipe marker the parser
throws the "must end with the marker" `InvalidInputException`; so it does on
every path that `CanHandleFile` refuses. -/
theorem C6_must_end_with_marker (path : Str) :
    ((path = [] ∨ path.getLast? ≠ some '|') →
      parseInputCommand path = .error (.InvalidInputException msgMustEnd)) ∧
    (CanHandleFile path = false →
      parseInputCommand path = .error (.InvalidInputException msgMustEnd)) := by
  have key : (path = [] ∨ path.getLast? ≠ some '|') →
      parseInputCommand path = .error (.InvalidInputException msgMustEnd) := by
    intro h
    rw [parseInputCommand, if_pos]
    rcases h with h | h
    · left; rw [h]; rfl
    · right; exact h
  refine ⟨key, ?_⟩
  intro hc
  apply key
  cases path with
  | nil => left; rfl
  | cons a r =>
    right
    intro hl
    simp [CanHandleFile, hl] at hc

/-- C6 at a write-mode path and at an annotated path without the final
marker. -/
theorem C6_must_end_with_marker_witness :
    parseInputCommand "|cat".toList = .error (.InvalidInputException msgMustEnd) ∧
      parseInputCommand "cmd\x7ballowed_exit_codes=1\x7d".toList =
        .error (.InvalidInputException msgMustEnd) ∧
      parseInputCommand "echo hi".toList = .error (.InvalidInputException msgMustEnd) :=
  ⟨(C6_must_end_with_marker "|cat".toList).1 (Or.inr (by decide)),
    (C6_must_end_with_marker "cmd\x7ballowed_exit_codes=1\x7d".toList).1 (Or.inr (by decide)),
    (C6_must_end_with_marker "echo hi".toList).2 (by decide)⟩

/-- C7: when the body of the annotation is made only of commas and whitespace
(the empty body included) the parser throws the no-valid-codes
`InvalidInputException`. -/
theorem C7_no_valid_codes (c body : Str)
    (hb : ∀ ch ∈ body, ch = ',' ∨ isTrimChar ch = true) :
    parseInputCommand (c ++ "\x7ballowed_exit_codes=".toList ++ body ++ "\x7d|".toList) =
      .error (.InvalidInputException "No valid exit codes parsed.".toList) := by
  have hm : ¬ marker <:+: body := by
    apply not_infix_of_no_brace
    intro hmem
    rcases hb _ hmem with h | h
    · revert h; decide
    · revert h; decide
  have hall : ∀ r ∈ body.splitOn ',', stripped r = [] := by
    intro r hr
    apply stripped_of_all_trim
    intro x hx
    have := mem_of_mem_splitOn ',' body r hr x hx
    rcases hb x this.1 with h | h
    · exact absurd h this.2
    · exact h
  have hfold := foldTokens_good (body.splitOn ',') (fun r hr => Or.inl (hall r hr)) ∅
  have hc : codesOf ((body.splitOn ',').map stripped) = ∅ := by
    apply codesOf_eq_empty
    intro t ht
    obtain ⟨r, hr, rfl⟩ := List.mem_map.1 ht
    exact hall r hr
  rw [hc, Finset.empty_union] at hfold
  have hpa := parseInputCommand_annotated c body hm
  rw [parseCodes_eq_foldTokens, hfold] at hpa
  exact hpa

/-- C7 at `cmd{allowed_exit_codes=}|` and at a body of commas and blanks. -/
theorem C7_no_valid_codes_witness :
    parseInputCommand "cmd\x7ballowed_exit_codes=\x7d|".toList =
        .error (.InvalidInputException "No valid exit codes parsed.".toList) ∧
      parseInputCommand "cmd\x7ballowed_exit_codes= , ,\t\x7d|".toList =
        .error (.InvalidInputException "No valid exit codes parsed.".toList) :=
  ⟨C7_no_valid_codes "cmd".toList [] (by decide),
    C7_no_valid_codes "cmd".toList " , ,\t".toList (by decide)⟩

/-- C8: on an annotated path whose tokens before `t` are all empty or valid
codes, a non-empty digit string `t` with value above 2147483647 makes the
parser throw the out-of-range `InvalidInputException` naming `t`; a digit string
with value at most 2147483647 is accepted with exactly that value, alone or
among other empty or valid tokens. -/
theorem C8_out_of_range (c : Str) :
    (∀ body pre t post, ¬ "\x7ballowed_exit_codes=".toList <:+: body →
      tokensOf body = pre ++ t :: post →
      (∀ p ∈ pre, p = [] ∨ validCode p = true) → t ≠ [] → (∀ ch ∈ t, isdigit ch = true) →
      2147483647 < digitsValue t →
      parseInputCommand (c ++ "\x7ballowed_exit_codes=".toList ++ body ++ "\x7d|".toList) =
        .error (.InvalidInputException
          ("Exit code out of range: \x27".toList ++ t ++ "\x27. Value too large.".toList))) ∧
    (∀ t, t ≠ [] → (∀ ch ∈ t, isdigit ch = true) → digitsValue t ≤ 2147483647 →
      parseInputCommand (c ++ "\x7ballowed_exit_codes=".toList ++ t ++ "\x7d|".toList) =
        .ok ⟨stripped c, {(digitsValue t : Int)}⟩) ∧
    (∀ body t, ¬ "\x7ballowed_exit_codes=".toList <:+: body →
      (∀ u ∈ tokensOf body, u = [] ∨ validCode u = true) → t ∈ tokensOf body → t ≠ [] →
      parseInputCommand (c ++ "\x7ballowed_exit_codes=".toList ++ body ++ "\x7d|".toList) =
          .ok ⟨stripped c, codesOf (tokensOf body)⟩ ∧
        (digitsValue t : Int) ∈ codesOf (tokensOf body)) := by
  refine ⟨?_, ?_, ?_⟩
  · intro body pre t post hm hsplit hpre hne hd hv
    apply parse_tokens_bad c body hm pre t post _ hsplit hpre
    intro raw acc hraw
    subst hraw
    exact loopBody_tooLarge raw acc hne hd hv
  · intro t hne hd hv
    have hm : ¬ marker <:+: t :=
      not_infix_of_no_brace t (fun hb => isdigit_ne_brace _ (hd _ hb) rfl)
    have htok := tokensOf_digits t hd
    have hall : ∀ u ∈ tokensOf t, u = [] ∨ validCode u = true := by
      intro u hu
      rw [htok, List.mem_singleton] at hu
      right
      rw [hu, validCode_iff]
      exact ⟨hne, hd, hv⟩
    have hex : ∃ u ∈ tokensOf t, u ≠ [] := ⟨t, by rw [htok]; simp, hne⟩
    have := parse_tokens_ok c t hm hall hex
    rw [htok, codesOf_cons t [] hne] at this
    exact this
  · intro body t hm hall ht hne
    refine ⟨parse_tokens_ok c body hm hall ⟨t, ht, hne⟩, ?_⟩
    simp only [codesOf, List.mem_toFinset, List.mem_map, List.mem_filter]
    refine ⟨t, ⟨ht, ?_⟩, rfl⟩
    cases t with
    | nil => exact absurd rfl hne
    | cons a r => rfl

/-- C8 at the two ends of the range: `2147483648` is rejected, `2147483647` is
accepted, and so is `007` with value 7. -/
theorem C8_out_of_range_witness :
    parseInputCommand "cmd\x7ballowed_exit_codes=2147483648\x7d|".toList =
        .error (.InvalidInputException
          "Exit code out of range: \x272147483648\x27. Value too large.".toList) ∧
      parseInputCommand "cmd\x7ballowed_exit_codes=2147483647\x7d|".toList =
        .ok ⟨"cmd".toList, {2147483647}⟩ ∧
      parseInputCommand "cmd\x7ballowed_exit_codes=007\x7d|".toList =
        .ok ⟨"cmd".toList, {7}⟩ :=
  ⟨(C8_out_of_range "cmd".toList).1 "2147483648".toList [] "2147483648".toList []
      (not_infix_of_no_brace _ (by decide)) (by decide) (by decide) (by decide) (by decide)
      (by decide),
    (C8_out_of_range "cmd".toList).2.1 "2147483647".toList (by decide) (by decide) (by decide),
    (C8_out_of_range "cmd".toList).2.1 "007".toList (by decide) (by decide) (by decide)⟩

/-- C9: after `Close` the stream of the handle is null, whatever `Close`
returned or threw; a later `Close` on that handle returns normally, calls no
primitive and leaves the handle as it is. -/
theorem C9_close_marks_closed (h : ShellFileHandle) (result : Int) (err : Str) :
    (h.Close result err).handle.pipe = none ∧
    ∀ (result2 : Int) (err2 : Str),
      ((h.Close result err).handle.Close result2 err2).result = .ok () ∧
      ((h.Close result err).handle.Close result2 err2).handle = (h.Close result err).handle ∧
      ((h.Close result err).handle.Close result2 err2).calls = [] := by
  have h1 : (h.Close result err).handle.pipe = none := by
    unfold ShellFileHandle.Close
    cases hp : h.pipe with
    | none => simpa using hp
    | some f => rfl
  refine ⟨h1, ?_⟩
  intro result2 err2
  generalize (h.Close result err).handle = h2 at h1
  unfold ShellFileHandle.Close
  rw [h1]
  exact ⟨rfl, rfl, rfl⟩

/-- C10 does not hold as stated: with `fread` yielding zero bytes and `pclose`
returning -1, the status is neither a normal exit nor a termination by signal,
and yet `Read` throws an IO error instead of returning 0. -/
theorem C10_counterexample :
    WIFEXITED (-1) = false ∧ WIFSIGNALED (-1) = false ∧
      (Read (ShellFileHandle.mk "true|".toList (some 1) {0}) 4096 0 (-1)
          "No child processes".toList).result =
        .error (.IOException
          (msgCouldNotClose "true|".toList "No child processes".toList)) ∧
      (Read (ShellFileHandle.mk "true|".toList (some 1) {0}) 4096 0 (-1)
          "No child processes".toList).result ≠ .ok 0 := by
  refine ⟨by decide, by decide, rfl, ?_⟩
  intro h
  cases h

/-- C10, amended: on an open handle, a `Read` whose `fread` yields `n > 0`
returns `n`, leaves the handle as it is and calls only `fread`; a `Read` whose
`fread` yields 0 calls `pclose` in the same call and leaves the stream null, it
throws the IO error of `Close` when `pclose` returns -1, when the exit code is
not accepted or when a signal ended the process, and returns 0 in every other
case; on a handle whose stream is null `Read` returns 0, calls no primitive and
leaves the handle as it is. -/
theorem C10_read_end_of_stream (path : Str) (f : Nat) (S : Finset Int) (nr_bytes result : Int)
    (err : Str) :
    (∀ n : Int, 0 < n →
      (Read (ShellFileHandle.mk path (some f) S) nr_bytes n result err).result = .ok n ∧
      (Read (ShellFileHandle.mk path (some f) S) nr_bytes n result err).handle =
        ShellFileHandle.mk path (some f) S ∧
      (Read (ShellFileHandle.mk path (some f) S) nr_bytes n result err).calls =
        [.fread f nr_bytes]) ∧
    ((Read (ShellFileHandle.mk path (some f) S) nr_bytes 0 result err).handle =
        ShellFileHandle.mk path none S ∧
      (Read (ShellFileHandle.mk path (some f) S) nr_bytes 0 result err).calls =
        [.fread f nr_bytes, .pclose f]) ∧
    (result = -1 →
      (Read (ShellFileHandle.mk path (some f) S) nr_bytes 0 result err).result =
        .error (.IOException (msgCouldNotClose path err))) ∧
    (WIFEXITED result = true → WEXITSTATUS result ∉ S →
      (Read (ShellFileHandle.mk path (some f) S) nr_bytes 0 result err).result =
        .error (.IOException (msgExitedAbnormally (WEXITSTATUS result) path))) ∧
    (WIFSIGNALED result = true →
      (Read (ShellFileHandle.mk path (some f) S) nr_bytes 0 result err).result =
        .error (.IOException (msgSignal (WTERMSIG result) path))) ∧
    (result ≠ -1 → ¬ (WIFEXITED result = true ∧ WEXITSTATUS result ∉ S) →
      WIFSIGNALED result = false →
      (Read (ShellFileHandle.mk path (some f) S) nr_bytes 0 result err).result = .ok 0) ∧
    (∀ n : Int, Read (ShellFileHandle.mk path none S) nr_bytes n result err =
      ⟨.ok 0, ShellFileHandle.mk path none S, []⟩) := by
  have hres : (Read (ShellFileHandle.mk path (some f) S) nr_bytes 0 result err).result =
      match interpretStatus (ShellFileHandle.mk path (some f) S) result err with
      | .error e => .error e
      | .ok _ => .ok 0 := rfl
  refine ⟨?_, ⟨rfl, rfl⟩, ?_, ?_, ?_, ?_, ?_⟩
  · intro n hn
    have h1 : n ≠ -1 := by omega
    have h2 : n ≠ 0 := by omega
    simp [Read, h1, h2]
  · intro h1
    subst h1
    rw [hres, interpretStatus_failed]
  · intro he hs
    rw [hres, interpretStatus_exited_bad _ _ _ he hs]
  · intro hsig
    rw [hres, interpretStatus_signaled _ _ _ hsig]
  · intro h1 h2 h3
    rw [hres]
    cases he : WIFEXITED result with
    | true =>
      have hs : WEXITSTATUS result ∈ S := by
        by_contra hn
        exact h2 ⟨he, hn⟩
      rw [interpretStatus_exited_ok _ _ _ he hs]
    | false => rw [interpretStatus_other _ _ _ h1 he h3]
  · intro n
    rfl

/-- C10 amended, at a read of 3 bytes and at an end of stream after which the
process is found to have exited with code 3 (status 768), not accepted. -/
theorem C10_read_end_of_stream_witness :
    (Read (ShellFileHandle.mk "false|".toList (some 1) {0}) 4096 3 0 "".toList).result =
        .ok 3 ∧
      (Read (ShellFileHandle.mk "false|".toList (some 1) {0}) 4096 0 768 "".toList).result =
        .error (.IOException (msgExitedAbnormally 3 "false|".toList)) :=
  ⟨((C10_read_end_of_stream "false|".toList 1 {0} 4096 0 "".toList).1 3 (by decide)).1,
    (C10_read_end_of_stream "false|".toList 1 {0} 4096 768 "".toList).2.2.2.1 (by decide)
      (by decide)⟩

/-- C11: on a handle whose stream is open, for `nr_bytes ≥ 0` and a write
primitive that never reports more than it was offered, `Write` has a result (it
is a total function on such handles), leaves the handle as it is and either
throws the IO error or returns `nr_bytes`; it throws exactly when some call of
the primitive gives back a non-positive count; the `k`-th call is offered the
bytes that start right after those accepted by the earlier calls, as many as
remain up to 2147483647; when no call fails the accepted counts sum to
`nr_bytes`; a primitive that always accepts something makes `Write` return
`nr_bytes`; with `nr_bytes = 0` no call is made and `Write` returns 0. -/
theorem C11_write_all_or_fail (fw : Nat → Int → Int → Int) (h : ShellFileHandle) (f : Nat)
    (nr_bytes : Int) (err : Str) (hopen : h.pipe = some f)
    (hfw : ∀ i off n, fw i off n ≤ n) (hn : 0 ≤ nr_bytes) :
    ∃ o, Write fw h nr_bytes err = some o ∧
      o.handle = h ∧
      (o.result = .ok nr_bytes ∨
        o.result = .error (.IOException (msgCouldNotWrite h.path err))) ∧
      (o.result = .error (.IOException (msgCouldNotWrite h.path err)) ↔
        ∃ a ∈ acceptedFrom fw 0 o.calls, a ≤ 0) ∧
      (∀ k, k < o.calls.length →
        o.calls[k]? =
          some (.fwrite f ((acceptedFrom fw 0 o.calls).take k).sum
            (min 2147483647 (nr_bytes - ((acceptedFrom fw 0 o.calls).take k).sum)))) ∧
      (o.result = .ok nr_bytes → (acceptedFrom fw 0 o.calls).sum = nr_bytes) ∧
      ((∀ i off n, 0 < n → 0 < fw i off n) → o.result = .ok nr_bytes) ∧
      (nr_bytes = 0 → o.calls = [] ∧ o.result = .ok 0) := by
  obtain ⟨h1, h2, h3⟩ := writeLoop_spec fw h.path f err hfw nr_bytes.toNat 0 0 nr_bytes 0
    (Nat.le_refl _) hn
  have hpos := writeLoop_counts_pos fw h.path f err nr_bytes.toNat 0 0 nr_bytes 0
    (Nat.le_refl _)
  have hw : Write fw h nr_bytes err =
      some ⟨(writeLoop fw h.path f err 0 0 nr_bytes 0).1, h,
        (writeLoop fw h.path f err 0 0 nr_bytes 0).2⟩ := by
    unfold ShellFileSystem.Write
    rw [hopen]
  refine ⟨_, hw, rfl, ?_⟩
  show ((writeLoop fw h.path f err 0 0 nr_bytes 0).1 = .ok nr_bytes ∨
      (writeLoop fw h.path f err 0 0 nr_bytes 0).1 =
        .error (.IOException (msgCouldNotWrite h.path err))) ∧
    ((writeLoop fw h.path f err 0 0 nr_bytes 0).1 =
        .error (.IOException (msgCouldNotWrite h.path err)) ↔
      ∃ a ∈ acceptedFrom fw 0 (writeLoop fw h.path f err 0 0 nr_bytes 0).2, a ≤ 0) ∧
    (∀ k, k < (writeLoop fw h.path f err 0 0 nr_bytes 0).2.length →
      (writeLoop fw h.path f err 0 0 nr_bytes 0).2[k]? =
        some (.fwrite f
          ((acceptedFrom fw 0 (writeLoop fw h.path f err 0 0 nr_bytes 0).2).take k).sum
          (min 2147483647
            (nr_bytes -
              ((acceptedFrom fw 0 (writeLoop fw h.path f err 0 0 nr_bytes 0).2).take k).sum)))) ∧
    ((writeLoop fw h.path f err 0 0 nr_bytes 0).1 = .ok nr_bytes →
      (acceptedFrom fw 0 (writeLoop fw h.path f err 0 0 nr_bytes 0).2).sum = nr_bytes) ∧
    ((∀ i off n, 0 < n → 0 < fw i off n) →
      (writeLoop fw h.path f err 0 0 nr_bytes 0).1 = .ok nr_bytes) ∧
    (nr_bytes = 0 →
      (writeLoop fw h.path f err 0 0 nr_bytes 0).2 = [] ∧
      (writeLoop fw h.path f err 0 0 nr_bytes 0).1 = .ok 0)
  simp only [zero_add] at h1 h3
  have hdich : (∃ a ∈ acceptedFrom fw 0 (writeLoop fw h.path f err 0 0 nr_bytes 0).2, a ≤ 0) ∨
      ∀ a ∈ acceptedFrom fw 0 (writeLoop fw h.path f err 0 0 nr_bytes 0).2, 0 < a := by
    by_cases hex : ∃ a ∈ acceptedFrom fw 0 (writeLoop fw h.path f err 0 0 nr_bytes 0).2, a ≤ 0
    · exact Or.inl hex
    · right
      intro a ha
      by_contra hle
      exact hex ⟨a, ha, by omega⟩
  refine ⟨?_, ?_, h1, ?_, ?_, ?_⟩
  · rcases hdich with hex | hall
    · exact Or.inr (h2 hex)
    · exact Or.inl (h3 hall).1
  · constructor
    · intro herr
      rcases hdich with hex | hall
      · exact hex
      · rw [(h3 hall).1] at herr
        cases herr
    · exact h2
  · intro hok
    rcases hdich with hex | hall
    · rw [h2 hex] at hok
      cases hok
    · exact (h3 hall).2
  · intro hfwpos
    apply (h3 _).1
    intro a ha
    obtain ⟨k, call, hcall, rfl⟩ := acceptedFrom_mem fw _ 0 a ha
    obtain ⟨off, cnt, rfl, hcnt⟩ := hpos call hcall
    exact hfwpos k off cnt hcnt
  · intro h0
    subst h0
    rw [writeLoop_done fw h.path f err 0 0 0 0 (by omega)]
    exact ⟨rfl, rfl⟩

/-- C11 at five bytes written through an open stream to a primitive that
accepts all it is offered, and to one that accepts at most two bytes a call. -/
theorem C11_write_all_or_fail_witness :
    (∃ o, Write (fun _ _ n => n) (ShellFileHandle.mk "|cat".toList (some 1) {0}) 5 [] =
        some o ∧ o.result = .ok 5) ∧
      ∃ o, Write (fun _ _ n => min n 2) (ShellFileHandle.mk "|cat".toList (some 1) {0}) 5 [] =
        some o ∧ o.result = .ok 5 := by
  constructor
  · obtain ⟨o, ho, _, _, _, _, _, hall, _⟩ :=
      C11_write_all_or_fail (fun _ _ n => n) (ShellFileHandle.mk "|cat".toList (some 1) {0}) 1 5
        [] rfl (fun _ _ n => Int.le_refl n) (by decide)
    exact ⟨o, ho, hall (fun _ _ _ hn => hn)⟩
  · obtain ⟨o, ho, _, _, _, _, _, hall, _⟩ :=
      C11_write_all_or_fail (fun _ _ n => min n 2)
        (ShellFileHandle.mk "|cat".toList (some 1) {0}) 1 5 [] rfl
        (fun _ _ n => min_le_left n 2) (by decide)
    exact ⟨o, ho, hall (fun _ _ n hn => lt_min hn (by decide))⟩

/-- C12: on a non-empty path `OpenFile` looks at the first character only.  When
it is the pipe marker it spawns, for writing, the path without its first
character, as it stands, and the handle accepts `{0}`; otherwise a failure of
the parser is thrown before any primitive is called, and on success it spawns,
for reading, the parsed command and the handle accepts the parsed set. -/
theorem C12_open_direction (path : Str) (hne : path ≠ []) (popen_result : Option Nat)
    (err : Str) (setting : Option Bool) :
    (path.head? = some '|' →
      (OpenFile path popen_result err setting).calls.head? =
          some (.popen path.tail "w".toList) ∧
        (∀ f, popen_result = some f →
          (OpenFile path popen_result err setting).result = .ok ⟨path, some f, {0}⟩) ∧
        (popen_result = none →
          (OpenFile path popen_result err setting).result =
            .error (.IOException (msgCouldNotOpenWrite path err)))) ∧
    (path.head? ≠ some '|' →
      (∀ e, parseInputCommand path = .error e →
        (OpenFile path popen_result err setting).result = .error e ∧
        (OpenFile path popen_result err setting).calls = []) ∧
      (∀ p, parseInputCommand path = .ok p →
        (OpenFile path popen_result err setting).calls.head? =
            some (.popen p.command "r".toList) ∧
          (∀ f, popen_result = some f →
            (OpenFile path popen_result err setting).result =
              .ok ⟨path, some f, p.allowed_exit_codes⟩) ∧
          (popen_result = none →
            (OpenFile path popen_result err setting).result =
              .error (.IOException (msgCouldNotOpenRead path err))))) := by
  obtain ⟨a, r, rfl⟩ : ∃ a r, path = a :: r := by
    cases path with
    | nil => exact absurd rfl hne
    | cons a r => exact ⟨a, r, rfl⟩
  constructor
  · intro hw
    have hsub : substr (a :: r) 1 (a :: r).length = .ok r := by
      simp [substr]
    rw [OpenFile, if_pos hw, hsub]
    cases popen_result with
    | none => exact ⟨rfl, fun f hf => (by cases hf), fun _ => rfl⟩
    | some g =>
      refine ⟨rfl, ?_, fun hn => (by cases hn)⟩
      intro f hf
      cases hf
      rfl
  · intro hr
    constructor
    · intro e he
      rw [OpenFile, if_neg hr, he]
      exact ⟨rfl, rfl⟩
    · intro p hp
      rw [OpenFile, if_neg hr, hp]
      cases popen_result with
      | none => exact ⟨rfl, fun f hf => (by cases hf), fun _ => rfl⟩
      | some g =>
        refine ⟨rfl, ?_, fun hn => (by cases hn)⟩
        intro f hf
        cases hf
        rfl

/-- C12 at `|cat {allowed_exit_codes=3}|`: the path starts with the marker, so
the text after it is spawned for writing as it stands and the set is `{0}`. -/
theorem C12_open_direction_witness :
    (OpenFile "|cat \x7ballowed_exit_codes=3\x7d|".toList (some 7) [] none).calls.head? =
        some (.popen "cat \x7ballowed_exit_codes=3\x7d|".toList "w".toList) ∧
      (OpenFile "|cat \x7ballowed_exit_codes=3\x7d|".toList (some 7) [] none).result =
        .ok ⟨"|cat \x7ballowed_exit_codes=3\x7d|".toList, some 7, {0}⟩ :=
  ⟨((C12_open_direction "|cat \x7ballowed_exit_codes=3\x7d|".toList (by decide) (some 7) []
      none).1 (by decide)).1,
    ((C12_open_direction "|cat \x7ballowed_exit_codes=3\x7d|".toList (by decide) (some 7) []
      none).1 (by decide)).2.1 7 rfl⟩

/-- C16: releasing a handle never throws, whatever the handle and the status: it
leaves the handle as `Close` leaves it, with a null stream, makes the calls of
`Close`, and when `Close` throws it prints the caught exception instead of
passing it on; `Close` itself, on the same handle and status, hands that
exception to its caller. -/
theorem C16_release_never_throws (what : Thrown → Str) (h : ShellFileHandle) (result : Int)
    (err : Str) :
    (h.destructor what result err).result = .ok () ∧
    (h.destructor what result err).handle = (h.Close result err).handle ∧
    (h.destructor what result err).handle.pipe = none ∧
    (∀ e, (h.Close result err).result = .error e →
      (h.destructor what result err).calls =
        (h.Close result err).calls ++ [.printf (msgDestructor (what e))]) ∧
    ((h.Close result err).result = .ok () →
      (h.destructor what result err).calls = (h.Close result err).calls) := by
  have hpipe : (h.Close result err).handle.pipe = none := by
    unfold ShellFileHandle.Close
    cases hp : h.pipe with
    | none => simpa using hp
    | some f => rfl
  unfold ShellFileHandle.destructor
  cases hc : (h.Close result err).result with
  | ok u => exact ⟨rfl, rfl, hpipe, fun e he => (by cases he), fun _ => rfl⟩
  | error e0 =>
    refine ⟨rfl, rfl, hpipe, ?_, fun hok => (by cases hok)⟩
    intro e he
    cases he
    rfl

/-- C16 at an open handle whose process exited with code 3, not accepted:
`Close` throws the IO error, the release returns normally and prints it. -/
theorem C16_release_never_throws_witness :
    ((ShellFileHandle.mk "false|".toList (some 1) {0}).Close 768 []).result =
        .error (.IOException (msgExitedAbnormally 3 "false|".toList)) ∧
      ((ShellFileHandle.mk "false|".toList (some 1) {0}).destructor (fun _ => []) 768
          []).result = .ok () ∧
      ((ShellFileHandle.mk "false|".toList (some 1) {0}).destructor (fun _ => []) 768
          []).calls = [.pclose 1, .printf (msgDestructor [])] :=
  ⟨by decide,
    (C16_release_never_throws (fun _ => []) (ShellFileHandle.mk "false|".toList (some 1) {0})
      768 []).1,
    (C16_release_never_throws (fun _ => []) (ShellFileHandle.mk "false|".toList (some 1) {0})
      768 []).2.2.2.1 (.IOException (msgExitedAbnormally 3 "false|".toList)) (by decide)⟩

/-- C17: on every handle, open or closed, `Reset` throws; it never returns
normally, calls no primitive and leaves the handle as it is.  What it throws is
an `InternalException`, the class that the specification files under its
Unsupported kind, and neither an `InvalidInputException` nor an
`IOException`. -/
theorem C17_reset_always_fails (h : ShellFileHandle) :
    (Reset h).result = .error (.InternalException msgCannotReset) ∧
    (Reset h).result ≠ .ok () ∧
    (Reset h).handle = h ∧
    (Reset h).calls = [] ∧
    (∀ e, (Reset h).result = .error e →
      e.kind = some .Unsupported ∧ e.kind ≠ some .InvalidInput ∧ e.kind ≠ some .InputOutput ∧
      (∀ msg, e ≠ .InvalidInputException msg) ∧ (∀ msg, e ≠ .IOException msg)) := by
  refine ⟨rfl, ?_, rfl, rfl, ?_⟩
  · intro hok
    cases hok
  · intro e he
    have : e = .InternalException msgCannotReset := by
      have h2 : (Reset h).result = .error (.InternalException msgCannotReset) := rfl
      rw [h2] at he
      cases he
      rfl
    subst this
    refine ⟨rfl, by decide, by decide, ?_, ?_⟩
    · intro msg hm; cases hm
    · intro msg hm; cases hm

/-- C17 at an open and at a closed handle. -/
theorem C17_reset_always_fails_witness :
    (Thrown.InternalException msgCannotReset).kind = some .Unsupported ∧
      (Reset (ShellFileHandle.mk "true|".toList none {0})).handle =
        ShellFileHandle.mk "true|".toList none {0} :=
  ⟨((C17_reset_always_fails (ShellFileHandle.mk "true|".toList (some 1) {0})).2.2.2.2
      (.InternalException msgCannotReset) rfl).1,
    (C17_reset_always_fails (ShellFileHandle.mk "true|".toList none {0})).2.2.1⟩

/-- C15: whenever the parser succeeds, the accepted set is non-empty, each of
its elements lies between 0 and 2147483647, and the command neither starts nor
ends with one of the trimmed whitespace characters. -/
theorem C15_parse_invariants (input : Str) (r : ParsedInputCommand)
    (h : parseInputCommand input = .ok r) :
    r.allowed_exit_codes.Nonempty ∧
    (∀ v ∈ r.allowed_exit_codes, 0 ≤ v ∧ v ≤ 2147483647) ∧
    (∀ a s, r.command = a :: s → isTrimChar a = false) ∧
    (∀ s b, r.command = s ++ [b] → isTrimChar b = false) := by
  rcases parseInputCommand_ok_shape input r h with ⟨p, _, rfl⟩ | ⟨c, body, _, _, rfl, hne, hall⟩
  · refine ⟨⟨0, by simp⟩, ?_, stripped_head p, stripped_last p⟩
    intro v hv
    have : v = 0 := by simpa using hv
    subst this
    exact ⟨by decide, by decide⟩
  · refine ⟨Finset.nonempty_iff_ne_empty.2 hne, ?_, stripped_head c, stripped_last c⟩
    intro v hv
    obtain ⟨t, ht, htne, rfl⟩ := codesOf_mem _ v hv
    rcases hall t ht with h0 | hvalid
    · exact absurd h0 htne
    · have := ((validCode_iff t).1 hvalid).2.2
      constructor
      · exact Int.ofNat_nonneg _
      · omega

/-- C15 at `  echo hi  |`, parsed to the command `echo hi` and the set `{0}`. -/
theorem C15_parse_invariants_witness :
    ({0} : Finset Int).Nonempty ∧ (∀ v ∈ ({0} : Finset Int), 0 ≤ v ∧ v ≤ 2147483647) ∧
      (∀ a s, "echo hi".toList = a :: s → isTrimChar a = false) ∧
      (∀ s b, "echo hi".toList = s ++ [b] → isTrimChar b = false) :=
  C15_parse_invariants "  echo hi  |".toList ⟨"echo hi".toList, {0}⟩ (by decide)

/-- C20: the parser is a total function whose only failures are
`InvalidInputException`s.  When the annotation branch is taken, the marker text
found ends at or before the closing brace, so the length handed to `substr` for
the body does not wrap around, and both `substr` calls stay inside the string;
`trim` never throws; `std::stoi` is reached only with a token that
`isNonNegativeInteger` accepts, on which it returns the value or reports
`out_of_range` and never `invalid_argument`; the `substr` of the default branch,
which starts at 0, never throws either. -/
theorem C20_parse_total (input : Str) :
    ((∃ r, parseInputCommand input = .ok r) ∨
      ∃ msg, parseInputCommand input = .error (.InvalidInputException msg)) ∧
    (∀ cb ob, rfindChar input '\x7d' (input.length - 1) = some cb →
      rfind input marker cb = some ob →
      marker.length = 20 ∧ ob + marker.length ≤ cb ∧ cb < input.length ∧
      size_t_sub cb (ob + marker.length) = cb - (ob + marker.length) ∧
      substr input 0 ob = .ok (input.take ob) ∧
      substr input (ob + marker.length) (size_t_sub cb (ob + marker.length)) =
        .ok ((input.drop (ob + marker.length)).take (cb - (ob + marker.length))) ∧
      ((input.drop (ob + marker.length)).take (cb - (ob + marker.length))).length =
        cb - (ob + marker.length)) ∧
    (∀ s, trim s = .ok (stripped s)) ∧
    (∀ t, isNonNegativeInteger t = true →
      stoi t = .value (digitsValue t) ∨ stoi t = .out_of_range) ∧
    (∀ n, substr input 0 n = .ok (input.take n)) := by
  refine ⟨?_, ?_, trim_eq, stoi_not_invalid, fun n => by simp [substr]⟩
  · cases hp : parseInputCommand input with
    | ok r => exact Or.inl ⟨r, rfl⟩
    | error e =>
      obtain ⟨msg, rfl⟩ := parseInputCommand_error_kind input e hp
      exact Or.inr ⟨msg, rfl⟩
  · intro cb ob hcb hob
    obtain ⟨h1, h2⟩ := annotation_indices input cb ob hcb hob
    have hs : size_t_sub cb (ob + marker.length) = cb - (ob + marker.length) := by
      rw [size_t_sub, if_pos h1]
    refine ⟨marker_length, h1, h2, hs, ?_, ?_, ?_⟩
    · simp [substr]
    · rw [hs, substr, if_neg (by omega)]
    · rw [List.length_take, List.length_drop]
      omega

/-- C20 at `cmd{allowed_exit_codes=7}|`: the marker text starts at index 3 and
the closing brace is at index 24. -/
theorem C20_parse_total_witness :
    marker.length = 20 ∧ 3 + marker.length ≤ 24 ∧
      24 < "cmd\x7ballowed_exit_codes=7\x7d|".toList.length ∧
      size_t_sub 24 (3 + marker.length) = 24 - (3 + marker.length) ∧
      substr "cmd\x7ballowed_exit_codes=7\x7d|".toList 0 3 =
        .ok ("cmd\x7ballowed_exit_codes=7\x7d|".toList.take 3) ∧
      substr "cmd\x7ballowed_exit_codes=7\x7d|".toList (3 + marker.length)
          (size_t_sub 24 (3 + marker.length)) =
        .ok (("cmd\x7ballowed_exit_codes=7\x7d|".toList.drop (3 + marker.length)).take
          (24 - (3 + marker.length))) ∧
      (("cmd\x7ballowed_exit_codes=7\x7d|".toList.drop (3 + marker.length)).take
          (24 - (3 + marker.length))).length = 24 - (3 + marker.length) :=
  (C20_parse_total "cmd\x7ballowed_exit_codes=7\x7d|".toList).2.1 24 3 (by decide) (by decide)

/-- C14: two bodies free of the marker text whose tokens, once stripped of
surrounding whitespace and with the empty ones left out, are the same list make
the parser give the same outcome on the two annotated paths: the same command
and set, or the same failure. -/
theorem C14_whitespace_and_empty_tokens (c b1 b2 : Str)
    (h1 : ¬ "\x7ballowed_exit_codes=".toList <:+: b1)
    (h2 : ¬ "\x7ballowed_exit_codes=".toList <:+: b2)
    (heq : (tokensOf b1).filter (fun t => !t.isEmpty) =
      (tokensOf b2).filter (fun t => !t.isEmpty)) :
    parseInputCommand (c ++ "\x7ballowed_exit_codes=".toList ++ b1 ++ "\x7d|".toList) =
      parseInputCommand (c ++ "\x7ballowed_exit_codes=".toList ++ b2 ++ "\x7d|".toList) := by
  have e1 := parseInputCommand_annotated c b1 h1
  have e2 := parseInputCommand_annotated c b2 h2
  rw [parseCodes_eq_foldTokens, foldTokens_filter] at e1 e2
  unfold tokensOf at heq
  rw [heq] at e1
  exact e1.trans e2.symm

/-- C14 at `cmd{allowed_exit_codes= 2 ,,130 ,}|` and
`cmd{allowed_exit_codes=2,130}|`. -/
theorem C14_whitespace_and_empty_tokens_witness :
    parseInputCommand
        ("cmd".toList ++ "\x7ballowed_exit_codes=".toList ++ " 2 ,,130 ,".toList ++
          "\x7d|".toList) =
      parseInputCommand
        ("cmd".toList ++ "\x7ballowed_exit_codes=".toList ++ "2,130".toList ++
          "\x7d|".toList) :=
  C14_whitespace_and_empty_tokens "cmd".toList " 2 ,,130 ,".toList "2,130".toList
    (not_infix_of_no_brace _ (by decide)) (not_infix_of_no_brace _ (by decide)) (by decide)

/-- C19: on a path that ends with `}|` and has the marker text somewhere before
that closing brace, the parser takes the annotation branch with the last
occurrence of the marker text: the body is what lies between that occurrence
and the closing brace, the command what lies before it, and the result is never
the default one (the whole text before the pipe marker with the set `{0}`); a
token of that body with a character that is not a digit, after tokens that are
empty or valid, gives the invalid-exit-code error naming it, as on
`echo {allowed_exit_codes=1}; echo ${x}|`. -/
theorem C19_last_occurrence_is_used :
    (∀ q : Str, "\x7ballowed_exit_codes=".toList <:+: q →
      ∃ c body, q = c ++ "\x7ballowed_exit_codes=".toList ++ body ∧
        ¬ "\x7ballowed_exit_codes=".toList <:+: body ∧
        parseInputCommand (q ++ "\x7d|".toList) =
          (match parseCodes body ∅ with
            | .error e => .error e
            | .ok codes =>
              if codes = ∅ then .error (.InvalidInputException msgNoValidCodes)
              else .ok ⟨stripped c, codes⟩) ∧
        parseInputCommand (q ++ "\x7d|".toList) ≠ .ok ⟨stripped (q ++ "\x7d".toList), {0}⟩ ∧
        (∀ pre t post, tokensOf body = pre ++ t :: post →
          (∀ p ∈ pre, p = [] ∨ validCode p = true) → t ≠ [] →
          (∃ ch ∈ t, isdigit ch = false) →
          parseInputCommand (q ++ "\x7d|".toList) =
            .error (.InvalidInputException (msgInvalidExitCode t)))) ∧
    parseInputCommand "echo \x7ballowed_exit_codes=1\x7d; echo $\x7bx\x7d|".toList =
      .error (.InvalidInputException
        "Invalid exit code: \x271\x7d; echo $\x7bx\x27. Must be a non-negative integer.".toList) := by
  constructor
  · intro q hq
    obtain ⟨c, body, hsplit, hm⟩ := last_marker_split q hq
    have hpath : q ++ "\x7d|".toList = c ++ marker ++ body ++ ['\x7d', '|'] := by
      rw [hsplit]; rfl
    have hpa := parseInputCommand_annotated c body hm
    refine ⟨c, body, hsplit, hm, ?_, ?_, ?_⟩
    · rw [hpath]; exact hpa
    · rw [hpath, hpa]
      intro hcontra
      cases hpc : parseCodes body ∅ with
      | error e => rw [hpc] at hcontra; cases hcontra
      | ok codes =>
        rw [hpc] at hcontra
        simp only at hcontra
        by_cases hempty : codes = ∅
        · rw [if_pos hempty] at hcontra; cases hcontra
        · rw [if_neg hempty] at hcontra
          have hcmd := congrArg ParsedInputCommand.command (Except.ok.inj hcontra)
          simp only at hcmd
          rw [hsplit] at hcmd
          exact stripped_ne_default c body hcmd
    · intro pre t post hsp hpre hne hbad
      rw [hpath]
      apply parse_tokens_bad c body hm pre t post _ hsp hpre
      intro raw acc hraw
      subst hraw
      exact loopBody_nondigit raw acc hne hbad
  · have hm : ¬ marker <:+: "1\x7d; echo $\x7bx".toList := by decide
    have := parse_tokens_bad "echo ".toList "1\x7d; echo $\x7bx".toList hm []
      "1\x7d; echo $\x7bx".toList []
      (.InvalidInputException (msgInvalidExitCode "1\x7d; echo $\x7bx".toList))
      (by decide) (by decide)
      (fun raw acc hraw => by
        have hb := loopBody_nondigit raw acc (by rw [hraw]; decide)
          ⟨'\x7d', by rw [hraw]; decide, by decide⟩
        rw [hraw] at hb
        exact hb)
    exact this

/-- C19 at the text `echo {allowed_exit_codes=1}; echo ${x` before the final
`}|`. -/
theorem C19_last_occurrence_is_used_witness :
    ∃ c body, "echo \x7ballowed_exit_codes=1\x7d; echo $\x7bx".toList =
        c ++ "\x7ballowed_exit_codes=".toList ++ body ∧
      ¬ "\x7ballowed_exit_codes=".toList <:+: body ∧
      parseInputCommand ("echo \x7ballowed_exit_codes=1\x7d; echo $\x7bx".toList ++
          "\x7d|".toList) =
        (match parseCodes body ∅ with
          | .error e => .error e
          | .ok codes =>
            if codes = ∅ then .error (.InvalidInputException msgNoValidCodes)
            else .ok ⟨stripped c, codes⟩) ∧
      parseInputCommand ("echo \x7ballowed_exit_codes=1\x7d; echo $\x7bx".toList ++
          "\x7d|".toList) ≠
        .ok ⟨stripped ("echo \x7ballowed_exit_codes=1\x7d; echo $\x7bx".toList ++
          "\x7d".toList), {0}⟩ ∧
      (∀ pre t post, tokensOf body = pre ++ t :: post →
        (∀ p ∈ pre, p = [] ∨ validCode p = true) → t ≠ [] →
        (∃ ch ∈ t, isdigit ch = false) →
        parseInputCommand ("echo \x7ballowed_exit_codes=1\x7d; echo $\x7bx".toList ++
            "\x7d|".toList) =
          .error (.InvalidInputException (msgInvalidExitCode t))) :=
  C19_last_occurrence_is_used.1 "echo \x7ballowed_exit_codes=1\x7d; echo $\x7bx".toList
    (by decide)

end ShellFS
